import Mathlib

/-!
Shallow embedding of the document-translation engine of
`src/backend/server.js` (the sequential upload-handler variant: rate
limiter, retry dispatcher, text extractor, scheduler, reassembler,
lines 34-240), together with proofs about the specification claims.

JS strings are modelled as `List Char`; virtual time and JS numbers as
`Int`; the parsed cheerio document as an inductive tree; the remote
translation service as a function from attempt number to a response.
-/

/-- JS strings are modelled as character lists, so that byte-identity of
outputs is plain list equality. -/
abbrev Str := List Char

/-- Whitespace as recognized by `String.prototype.trim`. -/
def isWs (c : Char) : Bool := c.isWhitespace

/-- Drop trailing whitespace. -/
def rtrimStr (s : Str) : Str := (s.reverse.dropWhile isWs).reverse

/-- `String.prototype.trim` (server.js line 99 `originalText.trim()`):
drop leading and trailing whitespace. -/
def jsTrim (s : Str) : Str := rtrimStr (s.dropWhile isWs)

/-- The leading-whitespace run of a string. -/
def wsLead (s : Str) : Str := s.takeWhile isWs

/-- The trailing-whitespace run of a string. -/
def wsTrail (s : Str) : Str := ((s.dropWhile isWs).reverse.takeWhile isWs).reverse

/-- server.js lines 137-139: `/^\d+$/.test(str.replace(/[.,]/g, ''))` —
strip every '.' and ',' and test that what is left is one or more digits. -/
def isOnlyNumbers (s : Str) : Bool :=
  let t := s.filter (fun c => !(c == '.' || c == ','))
  !t.isEmpty && t.all Char.isDigit

/-- The backquote character (code 96). -/
def backquoteChar : Char := Char.ofNat 96

/-- The single-quote character (code 39). -/
def singleQuoteChar : Char := Char.ofNat 39

/-- ECMAScript `GetSubstitution` as `String.prototype.replace` applies it
to a string replacement value with a string search value (no capture
groups): `$$` yields `$`, `$&` the matched text, `$` + backquote the text
before the match, `$` + single quote the text after it; any other `$`
(including `$1`..`$9`, which have no captures to refer to) stays
literal. -/
def getSubstitution (matched before after : Str) : Str → Str
  | [] => []
  | [c] => [c]
  | c :: c2 :: r2 =>
    if c = '$' then
      if c2 = '$' then '$' :: getSubstitution matched before after r2
      else if c2 = '&' then matched ++ getSubstitution matched before after r2
      else if c2 = backquoteChar then before ++ getSubstitution matched before after r2
      else if c2 = singleQuoteChar then after ++ getSubstitution matched before after r2
      else '$' :: c2 :: getSubstitution matched before after r2
    else c :: getSubstitution matched before after (c2 :: r2)

/-- The scan of `String.prototype.replace`: `bef` is the already-scanned
(reversed) prefix of the subject; at the first occurrence of `pat` the
replacement is run through `getSubstitution` with the matched text, the
text before the match and the text after it, and the rest of the subject
is appended unchanged. -/
def replaceFirstGo (pat repl : Str) : Str → Str → Str
  | bef, [] =>
    if pat.isEmpty then getSubstitution pat bef.reverse [] repl else []
  | bef, c :: rest =>
    if pat.isPrefixOf (c :: rest) then
      getSubstitution pat bef.reverse ((c :: rest).drop pat.length) repl
        ++ (c :: rest).drop pat.length
    else c :: replaceFirstGo pat repl (c :: bef) rest

/-- `String.prototype.replace` with a string search value (server.js line
178 `item.originalText.replace(item.trimmedText, translated)`): replace
the first occurrence of `pat` only, expanding `$`-escapes in the
replacement per `getSubstitution`; if `pat` does not occur, return the
string unchanged; an empty pattern matches at position 0. -/
def replaceFirst (s pat repl : Str) : Str :=
  replaceFirstGo pat repl [] s

def tagScript : String := "script"
def tagStyle : String := "style"
def tagMeta : String := "meta"
def tagLink : String := "link"
def tagH1 : String := "h1"
def tagH2 : String := "h2"
def tagH3 : String := "h3"
def tagStrong : String := "strong"
def tagB : String := "b"
def tagLi : String := "li"
def tagHtml : String := "html"
def tagHead : String := "head"
def tagBody : String := "body"
def tagP : String := "p"
def tagDiv : String := "div"

/-- server.js line 93: the container roles whose contents are skipped. -/
def nonTranslatableTags : List String := [tagScript, tagStyle, tagMeta, tagLink]

/-- `String.prototype.toLowerCase` (ASCII suffices for tag names). -/
def jsToLower (s : String) : String := String.mk (s.data.map Char.toLower)

/-- server.js lines 102-110: the priority switch on
`element.tagName.toLowerCase()`. -/
def priorityOf (tagName : String) : Nat :=
  let lt := jsToLower tagName
  if lt = tagH1 then 5
  else if lt = tagH2 then 4
  else if lt = tagH3 then 3
  else if lt = tagStrong ∨ lt = tagB then 2
  else if lt = tagLi then 1
  else 0

/-- A node of the parsed document tree (the cheerio DOM): an element with
tag name and child list, or a text node with raw character data.
Attributes and comment/doctype nodes are not touched by the translation
engine and are omitted from the model. -/
inductive Node where
  | element : String → List Node → Node
  | text : Str → Node

mutual
/-- Serialization (`$.html()` with `decodeEntities: false`): text data is
emitted verbatim, elements as `<tag>` children `</tag>` (the documents
this engine builds carry no attributes and no void elements). -/
def serializeNode : Node → Str
  | .text d => d
  | .element t cs =>
      '<' :: (t.data ++ '>' :: (serializeList cs ++ '<' :: '/' :: (t.data ++ ['>'])))
def serializeList : List Node → Str
  | [] => []
  | c :: cs => serializeNode c ++ serializeList cs
end

mutual
/-- Resolve a path of child indices to the text data stored there, if the
path leads to a text node.  Paths are the explicit form of the live node
references (`item.node`) the source holds into the mutable cheerio tree. -/
def textAt : Node → List Nat → Option Str
  | .text d, [] => some d
  | .element _ cs, i :: p => textAtL cs i p
  | _, _ => none
def textAtL : List Node → Nat → List Nat → Option Str
  | [], _, _ => none
  | c :: _, 0, p => textAt c p
  | _ :: cs, i + 1, p => textAtL cs i p
end

mutual
/-- Write new text data at a path (`item.node.data = ...`, line 178);
a path that does not lead to a text node leaves the tree unchanged. -/
def updateTextAt : Node → List Nat → Str → Node
  | .text _, [], s => .text s
  | .element t cs, i :: p, s => .element t (updateTextAtL cs i p s)
  | n, _, _ => n
def updateTextAtL : List Node → Nat → List Nat → Str → List Node
  | [], _, _, _ => []
  | c :: cs, 0, p, s => updateTextAt c p s :: cs
  | c :: cs, i + 1, p, s => c :: updateTextAtL cs i p s
end

mutual
/-- The tag name of the element that immediately contains the node a path
points to (`element.tagName` for the parent of `child`). -/
def containerTag : Node → List Nat → Option String
  | .element t cs, [i] => if i < cs.length then some t else none
  | .element _ cs, i :: p => containerTagL cs i p
  | _, _ => none
def containerTagL : List Node → Nat → List Nat → Option String
  | [], _, _ => none
  | c :: _, 0, p => containerTag c p
  | _ :: cs, i + 1, p => containerTagL cs i p
end

/-- One extracted text fragment (server.js lines 112-118), with the live
node reference made explicit as a tree path. -/
structure Fragment where
  path : List Nat
  originalText : Str
  trimmedText : Str
  priority : Nat
  tagName : String
deriving DecidableEq

/-- server.js line 101: a text node qualifies for extraction when its
trimmed text has length > 1 and is not purely numeric. -/
def qualifies (d : Str) : Bool :=
  decide ((jsTrim d).length > 1) && !isOnlyNumbers (jsTrim d)

/-- The fragments harvested from the direct text children of one element
with tag `t` (lines 95-121); `j` is the index of the first listed child in
the parent's child list. -/
def directFragments (t : String) : List Node → Nat → List Fragment
  | [], _ => []
  | .text d :: cs, j =>
      (if qualifies d then [⟨[j], d, jsTrim d, priorityOf t, t⟩] else [])
        ++ directFragments t cs (j + 1)
  | .element _ _ :: cs, j => directFragments t cs (j + 1)

mutual
/-- Text extraction (lines 91-122): `$('*').each` visits the elements of
the document in pre-order; an element whose tag is in
`nonTranslatableTags` contributes no direct text children; every element's
qualifying direct text children are pushed in child order.  `collectList`
prefixes each subtree's fragment paths with the child index. -/
def collectNode : Node → List Fragment
  | .text _ => []
  | .element t cs =>
      (if t ∈ nonTranslatableTags then [] else directFragments t cs 0)
        ++ collectList cs 0
def collectList : List Node → Nat → List Fragment
  | [], _ => []
  | c :: cs, j =>
      (collectNode c).map (fun f => { f with path := j :: f.path })
        ++ collectList cs (j + 1)
end

/-- Stable insertion used by `sortByPriorityDesc`: an element is placed in
front of the first already-placed element whose priority does not exceed
its own, so earlier elements of equal priority stay in front. -/
def insertPrio (x : Fragment) : List Fragment → List Fragment
  | [] => [x]
  | y :: ys => if y.priority ≤ x.priority then x :: y :: ys else y :: insertPrio x ys

/-- server.js line 129: `textNodes.sort((a, b) => b.priority - a.priority)`
— a stable (ES2019) in-place sort by priority descending.  The source
mutates its single array; this is the value that array holds afterwards. -/
def sortByPriorityDesc : List Fragment → List Fragment
  | [] => []
  | x :: xs => insertPrio x (sortByPriorityDesc xs)

/-- Modelled from cheerio's documented `load` (cheerio is an external
dependency, not part of src/): loading markup produces a document whose
`html` element wraps a `head` and a `body` holding the parsed content, per
the HTML5 parsing algorithm. -/
def cheerioLoad (body : List Node) : Node :=
  .element tagHtml [.element tagHead [], .element tagBody body]

/- ## Retry dispatcher (server.js lines 188-227) -/

/-- One observable step of `translateWithRetry`: a rate-limiter
acquisition (`translationLimiter.wait()`), the stagger sleep, one delivery
attempt (`httpClient.post`), or a backoff sleep. -/
inductive REvent where
  | acquire
  | stagger (ms : Nat)
  | attempt (n : Nat)
  | backoff (ms : Nat)
deriving DecidableEq

/-- The remote service's behavior for one text: per attempt number,
either a thrown transport error with a message, or a response whose
`translatedText` field is absent (`none`) or holds a string. -/
abbrev SvcBehavior := Nat → Except Str (Option Str)

def msgInvalidResponse : Str := "Invalid response format".data
def msgAllRetriesPre : Str := "All retries failed: ".data

/-- Lines 206-212 plus the catch: a response is accepted only when the
`translatedText` field is present and truthy (non-empty); otherwise the
attempt fails with `Invalid response format`; a thrown error fails with
its own message. -/
def attemptOutcome : Except Str (Option Str) → Except Str Str
  | .error m => .error m
  | .ok none => .error msgInvalidResponse
  | .ok (some t) => if t.isEmpty then .error msgInvalidResponse else .ok t

/-- Lines 193-196: the stagger sleep taken when `index > 0`. -/
def staggerEvents (index : Nat) : List REvent :=
  if 0 < index then [.stagger (index * 100)] else []

/-- The retry loop of lines 189-226 with `remaining` attempts left and
`attempt` the 1-based number of the next attempt.  Each iteration
acquires the limiter, staggers, attempts; on failure the last attempt
raises `All retries failed: <cause>`, earlier ones sleep the exponential
backoff `2^attempt * 1000 + jitter` and continue.  With 0 attempts left
the JS `for` loop falls through and returns `undefined` (`.ok none`). -/
def retryGo (svc : SvcBehavior) (index : Nat) (jit : Nat → Nat) :
    Nat → Nat → List REvent × Except Str (Option Str)
  | 0, _ => ([], .ok none)
  | remaining + 1, attempt =>
    let pre : List REvent := .acquire :: (staggerEvents index ++ [.attempt attempt])
    match attemptOutcome (svc attempt) with
    | .ok t => (pre, .ok (some t))
    | .error cause =>
      if remaining = 0 then (pre, .error (msgAllRetriesPre ++ cause))
      else
        let rest := retryGo svc index jit remaining (attempt + 1)
        (pre ++ .backoff (2 ^ attempt * 1000 + jit attempt) :: rest.1, rest.2)

/-- `translateWithRetry(text, tagName, index, maxRetries)` (line 188),
as the pair of its observable event trace and its result.  The text and
tag name only select `svc` and the remote payload, so they are factored
into `svc`. -/
def translateWithRetry (svc : SvcBehavior) (index : Nat) (jit : Nat → Nat)
    (maxRetries : Nat) : List REvent × Except Str (Option Str) :=
  retryGo svc index jit maxRetries 1

/-- The cause of the final (`maxRetries`-th) attempt's failure. -/
def lastCause (svc : SvcBehavior) (maxRetries : Nat) : Str :=
  match attemptOutcome (svc maxRetries) with
  | .error c => c
  | .ok _ => []

def countEv (p : REvent → Bool) (l : List REvent) : Nat := (l.filter p).length

def isAttemptEv : REvent → Bool
  | .attempt _ => true
  | _ => false

def isAcquireEv : REvent → Bool
  | .acquire => true
  | _ => false

def isStaggerEv : REvent → Bool
  | .stagger _ => true
  | _ => false

/- ## Scheduler / reassembler (server.js lines 141-186) -/

/-- The text that lines 176-179 write back for one fragment, if any:
`translateWithRetry(item.trimmedText, item.tagName, i)` is called with
batch index `i = 0` (`BATCH_SIZE = 1`) and default `maxRetries = 5`; a
successful, non-blank translation replaces the first occurrence of the
trimmed text inside the original text; a failure or blank translation
writes nothing.  The result component does not depend on the jitter. -/
def itemNewText (svc : Str → SvcBehavior) (f : Fragment) : Option Str :=
  match (translateWithRetry (svc f.trimmedText) 0 (fun _ => 0) 5).2 with
  | .ok (some t) =>
      if !t.isEmpty && !(jsTrim t).isEmpty
      then some (replaceFirst f.originalText f.trimmedText t)
      else none
  | _ => none

/-- The loop body of `processBatchSequential` (lines 171-185) for one
item: on success mutate the node the fragment points at, on failure keep
the original text (the catch swallows the error). -/
def processItem (svc : Str → SvcBehavior) (doc : Node) (f : Fragment) : Node :=
  match itemNewText svc f with
  | some s => updateTextAt doc f.path s
  | none => doc

/-- `processBatchSequential(batch)` (lines 170-186): items of a batch are
processed in order; each item's failure is caught at the item. -/
def processBatchSequential (svc : Str → SvcBehavior) (doc : Node) :
    List Fragment → Node
  | [] => doc
  | f :: fs => processBatchSequential svc (processItem svc doc f) fs

/-- `BATCH_SIZE = 1` (line 142): the slice loop of lines 148-165 hands
singleton batches to `processBatchSequential`. -/
def chunks1 {α : Type} : List α → List (List α)
  | [] => []
  | x :: xs => [x] :: chunks1 xs

/-- `processSequentialTranslation(textNodes)` (lines 141-168): drive every
singleton batch through `processBatchSequential`; a batch failure is
caught and the loop continues (the delay between requests does not touch
the tree). -/
def processSequentialTranslation (svc : Str → SvcBehavior) (doc : Node)
    (frags : List Fragment) : Node :=
  (chunks1 frags).foldl (fun d b => processBatchSequential svc d b) doc

/-- `translateHtmlStructureOptimized(htmlEnglish)` (lines 85-135).
Parsing is performed by the external cheerio library, so the embedding is
parameterized by the parsed content `body` of the input markup alongside
the raw input string; `cheerioLoad` supplies the document wrapper.  If no
text node qualifies, the input string itself is returned (line 126);
otherwise the mutated tree is re-serialized (line 134). -/
def translateHtmlStructureOptimized (svc : Str → SvcBehavior)
    (htmlEnglish : Str) (body : List Node) : Str :=
  let doc := cheerioLoad body
  let textNodes := collectNode doc
  if textNodes.isEmpty then htmlEnglish
  else
    serializeNode
      (processSequentialTranslation svc doc (sortByPriorityDesc textNodes))

/-- The document tree after the whole pipeline ran on `body`. -/
def finalDoc (svc : Str → SvcBehavior) (body : List Node) : Node :=
  processSequentialTranslation svc (cheerioLoad body)
    (sortByPriorityDesc (collectNode (cheerioLoad body)))

/-- The no-op translation stub: the service echoes each input text back
unchanged on the first attempt. -/
def echoSvc : Str → SvcBehavior := fun text _ => .ok (some text)

/- ## Rate limiter (server.js lines 34-80, instantiated `(3, 1500)`) -/

/-- The rate limiter's state (lines 36-42): configuration, recorded
request timestamps, number of queued resolvers, and the processing flag. -/
structure RateLimiter where
  maxRequests : Int
  timeWindow : Int
  requests : List Int
  queueLength : Nat
  processing : Bool

/-- The constructor (lines 36-42): it stores the configuration and
initializes empty state.  It contains no validation and cannot fail; the
`Except` codomain makes the (absent) possibility of a construction-time
configuration error statable. -/
def RateLimiter.construct (maxRequests timeWindow : Int) :
    Except String RateLimiter :=
  .ok ⟨maxRequests, timeWindow, [], 0, false⟩

/-- Line 62: drop the recorded timestamps older than the window. -/
def purgeRequests (timeWindow now : Int) (requests : List Int) : List Int :=
  requests.filter (fun t => now - t < timeWindow)

/-- `processQueue` (lines 53-79) with explicit virtual time: one drain of
`pending` queued `wait()` callers starting at time `now` with recorded
timestamps `requests`.  Each iteration purges, then either admits the
front caller (resolving it at the current time, recording the time, and
sleeping 100 ms) or sleeps until the oldest in-window timestamp leaves
the window (+50 ms).  Returns the resolve times in FIFO order.  `fuel`
bounds the iterations; `headD 0` stands for `this.requests[0]`, which the
full branch only reads when the purged list is non-empty (it is empty
there only if `maxRequests ≤ 0`, when nothing is ever admitted). -/
def processQueue (maxRequests timeWindow : Int) :
    Nat → Int → List Int → Nat → List Int
  | 0, _, _, _ => []
  | _ + 1, _, _, 0 => []
  | fuel + 1, now, requests, pending + 1 =>
    let reqs := purgeRequests timeWindow now requests
    if (reqs.length : Int) < maxRequests then
      now :: processQueue maxRequests timeWindow fuel (now + 100)
        (reqs ++ [now]) pending
    else
      let oldest := reqs.headD 0
      let waitTime := timeWindow - (now - oldest)
      processQueue maxRequests timeWindow fuel (now + (waitTime + 50)) reqs
        (pending + 1)

/-- `a` lies in the trailing window of length `timeWindow` ending at `t`. -/
def inWindow (timeWindow t a : Int) : Bool :=
  decide (a ≤ t) && decide (t - a < timeWindow)

/-- How many recorded times fall in the trailing window ending at `t`. -/
def windowCount (timeWindow : Int) (times : List Int) (t : Int) : Nat :=
  (times.filter (inWindow timeWindow t)).length


/- ## Predicates and concrete material used by the claim theorems -/

/-- Everything extraction promises about one fragment of a (sub)tree. -/
def FragSound (n : Node) (f : Fragment) : Prop :=
  f.path ≠ [] ∧
  textAt n f.path = some f.originalText ∧
  f.trimmedText = jsTrim f.originalText ∧
  qualifies f.originalText = true ∧
  containerTag n f.path = some f.tagName ∧
  f.tagName ∉ nonTranslatableTags ∧
  f.priority = priorityOf f.tagName

/-- The text a fragment's position holds after its own processing step,
given it held `current` before: only the fragment's own translation
outcome affects it. -/
def outcomeText (svc : Str → SvcBehavior) (f : Fragment) (current : Str) : Str :=
  match itemNewText svc f with
  | some s => s
  | none => current

/-- `pa`-events are covered by earlier `pb`-events with `credit` to spare:
in every prefix the `pa` count stays within `credit` plus the `pb` count. -/
def countCovered (pa pb : REvent → Bool) (credit : Nat) (l : List REvent) : Prop :=
  ∀ n, countEv pa (l.take n) ≤ credit + countEv pb (l.take n)

/-- Document order of tree positions: strict lexicographic order on
paths of child indices. -/
def pathBefore : List Nat → List Nat → Bool
  | _, [] => false
  | [], _ :: _ => true
  | i :: p, j :: q => decide (i < j) || (decide (i = j) && pathBefore p q)

/-- Boolean check that a relation holds for every ordered pair of list
positions. -/
def pairwiseB {α : Type} (r : α → α → Bool) : List α → Bool
  | [] => true
  | x :: xs => xs.all (r x) && pairwiseB r xs

def msgBoom : Str := "boom".data

/-- A service whose every attempt throws. -/
def svcBoom : SvcBehavior := fun _ => .error msgBoom

def strHelloWorld : Str := "Hello world".data
def strAA : Str := "aa".data
def strBB : Str := "bb".data
def strCC : Str := "cc".data
def strNoPad : Str := " no ".data
def strNo : Str := "no".data
def strYes : Str := "yes!".data
def strHiPad : Str := " hi ".data
def strHi : Str := "hi".data
def str42 : Str := "42".data
def strVar : Str := "var x = 10;".data
def exInputBare : Str := "<p>Hello world</p>".data
def exInputFull : Str := "<html><head></head><body><p>Hello world</p></body></html>".data
def exInput42 : Str := "<p>42</p>".data
def exBodyBare : List Node := [.element tagP [.text strHelloWorld]]
def exBodyNested : List Node :=
  [.element tagDiv [.text strAA, .element tagP [.text strBB], .text strCC]]
def exBodyNum : List Node := [.element tagP [.text str42]]
def exBodyScript : List Node :=
  [.element tagScript [.text strVar], .element tagP [.text strHelloWorld]]
def exBodyTwo : List Node :=
  [.element tagP [.text strNoPad], .element tagDiv [.text strYes]]
def exBodyWs : List Node := [.element tagP [.text strHiPad]]
def exBodyH1 : List Node := [.element tagP [.text strAA], .element tagH1 [.text strBB]]

/-- A service that fails every attempt for the text `strNo` and echoes
every other text. -/
def svcSel : Str → SvcBehavior := fun text _ =>
  if text = strNo then .error msgBoom else .ok (some text)

/-- The fragment the extractor harvests from `exBodyTwo`'s first text node. -/
def frag2 : Fragment := ⟨[1, 0, 0], strNoPad, strNo, 0, tagP⟩

/-- The fragment the extractor harvests from `exBodyWs`'s text node. -/
def frag9 : Fragment := ⟨[1, 0, 0], strHiPad, strHi, 0, tagP⟩

def strDollar : Str := "a$$b".data
def exBodyDollar : List Node := [.element tagP [.text strDollar]]
def exInputDollarFull : Str :=
  "<html><head></head><body><p>a$$b</p></body></html>".data
def strSubstProbe : Str := "$&!".data
def strHiBang : Str := " hi! ".data

/-- A service whose response is always the replacement-pattern probe. -/
def svcProbe : Str → SvcBehavior := fun _ _ => .ok (some strSubstProbe)

/- ## String lemmas -/

theorem dropWhile_head_false {α : Type} (p : α → Bool) :
    ∀ (l : List α) (c : α) (rest : List α), l.dropWhile p = c :: rest → p c = false := by
  intro l
  induction l with
  | nil => intro c rest h; simp [List.dropWhile] at h
  | cons x xs ih =>
    intro c rest h
    rw [List.dropWhile_cons] at h
    by_cases hx : p x = true
    · exact ih c rest (by simpa [hx] using h)
    · rw [if_neg hx] at h
      cases h
      simpa using hx

theorem rtrim_decomp (l : Str) :
    l = rtrimStr l ++ (l.reverse.takeWhile isWs).reverse := by
  conv_lhs => rw [← l.reverse_reverse, ← List.takeWhile_append_dropWhile isWs l.reverse]
  rw [List.reverse_append]
  rfl

theorem jsTrim_decomp (s : Str) : s = wsLead s ++ (jsTrim s ++ wsTrail s) := by
  conv_lhs => rw [← List.takeWhile_append_dropWhile isWs s]
  unfold wsLead jsTrim wsTrail
  congr 1
  exact rtrim_decomp (s.dropWhile isWs)

theorem jsTrim_head_false (s : Str) (c : Char) (rest : Str)
    (h : jsTrim s = c :: rest) : isWs c = false := by
  have hm : s.dropWhile isWs
      = c :: (rest ++ ((s.dropWhile isWs).reverse.takeWhile isWs).reverse) := by
    conv_lhs => rw [rtrim_decomp (s.dropWhile isWs)]
    have : rtrimStr (s.dropWhile isWs) = c :: rest := h
    rw [this]
    rfl
  exact dropWhile_head_false isWs s c _ hm

theorem jsTrim_reverse_head_false (s : Str) (c : Char) (rest : Str)
    (h : (jsTrim s).reverse = c :: rest) : isWs c = false := by
  unfold jsTrim rtrimStr at h
  rw [List.reverse_reverse] at h
  exact dropWhile_head_false isWs _ c rest h

theorem jsTrim_idem (s : Str) : jsTrim (jsTrim s) = jsTrim s := by
  cases ht : jsTrim s with
  | nil => rfl
  | cons c rest =>
    have hc := jsTrim_head_false s c rest ht
    have h1 : (c :: rest).dropWhile isWs = c :: rest := by
      rw [List.dropWhile_cons, if_neg (by simp [hc])]
    unfold jsTrim
    rw [h1]
    unfold rtrimStr
    cases hr : (c :: rest).reverse with
    | nil => simp at hr
    | cons c2 r2 =>
      have hc2 : isWs c2 = false := by
        apply jsTrim_reverse_head_false s c2 r2
        rw [ht, hr]
      rw [List.dropWhile_cons, if_neg (by simp [hc2]), ← hr, List.reverse_reverse]

theorem isPrefixOf_self_append (pat tail : Str) : pat.isPrefixOf (pat ++ tail) = true := by
  rw [List.isPrefixOf_iff_prefix]
  exact List.prefix_append pat tail

theorem replaceFirstGo_here (pat tail repl : Str) : ∀ (bef : Str),
    replaceFirstGo pat repl bef (pat ++ tail)
      = getSubstitution pat bef.reverse tail repl ++ tail := by
  intro bef
  cases pat with
  | nil =>
    cases tail with
    | nil => simp [replaceFirstGo]
    | cons c r =>
      show replaceFirstGo [] repl bef (c :: r) = _
      simp only [replaceFirstGo]
      rw [if_pos (by simp [List.isPrefixOf])]
      simp
  | cons c0 pt =>
    show replaceFirstGo (c0 :: pt) repl bef (c0 :: (pt ++ tail)) = _
    simp only [replaceFirstGo]
    have h1 : (c0 :: pt).isPrefixOf (c0 :: (pt ++ tail)) = true :=
      isPrefixOf_self_append (c0 :: pt) tail
    rw [if_pos h1]
    have h2 : List.drop (c0 :: pt).length (c0 :: (pt ++ tail)) = tail :=
      List.drop_left (c0 :: pt) tail
    rw [h2]

theorem replaceFirstGo_ws_skip (c0 : Char) (pt repl : Str) (h0 : isWs c0 = false) :
    ∀ (lead rest bef : Str), (∀ c ∈ lead, isWs c = true) →
      replaceFirstGo (c0 :: pt) repl bef (lead ++ rest)
        = lead ++ replaceFirstGo (c0 :: pt) repl (lead.reverse ++ bef) rest := by
  intro lead
  induction lead with
  | nil => intro rest bef _; rfl
  | cons w ws ih =>
    intro rest bef hws
    have hw : isWs w = true := hws w (by simp)
    show replaceFirstGo (c0 :: pt) repl bef (w :: (ws ++ rest)) = _
    simp only [replaceFirstGo]
    rw [if_neg]
    · rw [ih rest (w :: bef) (fun c hc => hws c (by simp [hc]))]
      rw [List.reverse_cons, List.append_assoc]
      rfl
    · intro hpre
      simp only [List.isPrefixOf, Bool.and_eq_true, beq_iff_eq] at hpre
      obtain ⟨hc, _⟩ := hpre
      rw [← hc] at hw
      rw [h0] at hw
      exact Bool.false_ne_true hw

theorem replaceFirst_trim (s t : Str) (h : jsTrim s ≠ []) :
    replaceFirst s (jsTrim s) t
      = wsLead s
        ++ (getSubstitution (jsTrim s) (wsLead s) (wsTrail s) t ++ wsTrail s) := by
  obtain ⟨c0, pt, hct⟩ : ∃ c0 pt, jsTrim s = c0 :: pt := by
    cases hj : jsTrim s with
    | nil => exact absurd hj h
    | cons a b => exact ⟨a, b, rfl⟩
  have hlead : ∀ c ∈ wsLead s, isWs c = true := fun c hc => List.mem_takeWhile_imp hc
  nth_rewrite 1 [jsTrim_decomp s]
  rw [hct]
  show replaceFirstGo (c0 :: pt) t [] (wsLead s ++ ((c0 :: pt) ++ wsTrail s)) = _
  rw [replaceFirstGo_ws_skip c0 pt t (jsTrim_head_false s c0 pt hct)
    (wsLead s) ((c0 :: pt) ++ wsTrail s) [] hlead]
  rw [replaceFirstGo_here (c0 :: pt) (wsTrail s) t ((wsLead s).reverse ++ [])]
  simp

theorem getSubstitution_no_dollar (matched before after : Str) :
    ∀ (repl : Str), '$' ∉ repl →
      getSubstitution matched before after repl = repl
  | [], _ => rfl
  | [_], _ => rfl
  | c :: c2 :: r2, h => by
    have hc : ¬(c = '$') := by
      intro he
      rw [he] at h
      exact h (List.mem_cons_self _ _)
    simp only [getSubstitution]
    rw [if_neg hc]
    rw [getSubstitution_no_dollar matched before after (c2 :: r2)
      (fun hm => h (List.mem_cons_of_mem c hm))]

theorem replaceFirst_trim_echo (s : Str) (h : jsTrim s ≠ [])
    (hd : '$' ∉ jsTrim s) :
    replaceFirst s (jsTrim s) (jsTrim s) = s := by
  rw [replaceFirst_trim s (jsTrim s) h]
  rw [getSubstitution_no_dollar _ _ _ _ hd]
  exact (jsTrim_decomp s).symm

/- ## Tree lemmas -/

theorem textAtL_get : ∀ (cs : List Node) (k : Nat) (p : List Nat) (c : Node),
    cs[k]? = some c → textAtL cs k p = textAt c p := by
  intro cs
  induction cs with
  | nil => intro k p c h; simp at h
  | cons x xs ih =>
    intro k p c h
    cases k with
    | zero =>
      rw [List.getElem?_cons_zero] at h
      cases h
      rfl
    | succ k =>
      rw [List.getElem?_cons_succ] at h
      exact ih k p c h

theorem containerTagL_get : ∀ (cs : List Node) (k : Nat) (p : List Nat) (c : Node),
    cs[k]? = some c → containerTagL cs k p = containerTag c p := by
  intro cs
  induction cs with
  | nil => intro k p c h; simp at h
  | cons x xs ih =>
    intro k p c h
    cases k with
    | zero =>
      rw [List.getElem?_cons_zero] at h
      cases h
      rfl
    | succ k =>
      rw [List.getElem?_cons_succ] at h
      exact ih k p c h

mutual
theorem textAt_update_ne : ∀ (n : Node) (p : List Nat) (s : Str) (q : List Nat),
    q ≠ p → textAt (updateTextAt n p s) q = textAt n q
  | .text _, p, s, q, h => by
    cases p with
    | nil =>
      cases q with
      | nil => exact absurd rfl h
      | cons j q2 => rfl
    | cons i p2 => rfl
  | .element t cs, p, s, q, h => by
    cases p with
    | nil => rfl
    | cons i p2 =>
      cases q with
      | nil => rfl
      | cons j q2 =>
        show textAtL (updateTextAtL cs i p2 s) j q2 = textAtL cs j q2
        apply textAtL_update_ne cs i p2 s j q2
        intro hc
        exact h (by rw [hc.1, hc.2])
theorem textAtL_update_ne : ∀ (cs : List Node) (i : Nat) (p : List Nat) (s : Str)
    (j : Nat) (q : List Nat), ¬(j = i ∧ q = p) →
    textAtL (updateTextAtL cs i p s) j q = textAtL cs j q
  | [], _, _, _, _, _, _ => rfl
  | c :: cs, 0, p, s, 0, q, h => by
    show textAt (updateTextAt c p s) q = textAt c q
    exact textAt_update_ne c p s q (fun he => h ⟨rfl, he⟩)
  | c :: cs, 0, p, s, j + 1, q, h => rfl
  | c :: cs, i + 1, p, s, 0, q, h => rfl
  | c :: cs, i + 1, p, s, j + 1, q, h => by
    show textAtL (updateTextAtL cs i p s) j q = textAtL cs j q
    exact textAtL_update_ne cs i p s j q (fun hc => h ⟨by rw [hc.1], hc.2⟩)
end

mutual
theorem textAt_update_self : ∀ (n : Node) (p : List Nat) (s d : Str),
    textAt n p = some d → textAt (updateTextAt n p s) p = some s
  | .text _, [], s, d, h => rfl
  | .text _, _ :: _, s, d, h => by simp [textAt] at h
  | .element t cs, [], s, d, h => by simp [textAt] at h
  | .element t cs, i :: p2, s, d, h => by
    show textAtL (updateTextAtL cs i p2 s) i p2 = some s
    exact textAtL_update_self cs i p2 s d h
theorem textAtL_update_self : ∀ (cs : List Node) (i : Nat) (p : List Nat) (s d : Str),
    textAtL cs i p = some d → textAtL (updateTextAtL cs i p s) i p = some s
  | [], i, p, s, d, h => by simp [textAtL] at h
  | c :: cs, 0, p, s, d, h => textAt_update_self c p s d h
  | c :: cs, i + 1, p, s, d, h => textAtL_update_self cs i p s d h
end

mutual
theorem updateTextAt_same : ∀ (n : Node) (p : List Nat) (d : Str),
    textAt n p = some d → updateTextAt n p d = n
  | .text d0, [], d, h => by
    have hd : d0 = d := Option.some.inj h
    show Node.text d = Node.text d0
    rw [hd]
  | .text d0, _ :: _, d, h => rfl
  | .element t cs, [], d, h => rfl
  | .element t cs, i :: p2, d, h => by
    show Node.element t (updateTextAtL cs i p2 d) = Node.element t cs
    rw [updateTextAtL_same cs i p2 d h]
theorem updateTextAtL_same : ∀ (cs : List Node) (i : Nat) (p : List Nat) (d : Str),
    textAtL cs i p = some d → updateTextAtL cs i p d = cs
  | [], i, p, d, h => rfl
  | c :: cs, 0, p, d, h => by
    show updateTextAt c p d :: cs = c :: cs
    rw [updateTextAt_same c p d h]
  | c :: cs, i + 1, p, d, h => by
    show c :: updateTextAtL cs i p d = c :: cs
    rw [updateTextAtL_same cs i p d h]
end

mutual
theorem serialize_contains : ∀ (n : Node) (p : List Nat) (d : Str),
    textAt n p = some d → ∃ a b, serializeNode n = a ++ (d ++ b)
  | .text d0, [], d, h => by
    have hd : d0 = d := Option.some.inj h
    exact ⟨[], [], by simp [serializeNode, hd]⟩
  | .text _, _ :: _, d, h => by simp [textAt] at h
  | .element t cs, [], d, h => by simp [textAt] at h
  | .element t cs, i :: p2, d, h => by
    obtain ⟨a, b, hab⟩ := serializeL_contains cs i p2 d h
    refine ⟨'<' :: (t.data ++ '>' :: a),
      b ++ ('<' :: '/' :: (t.data ++ ['>'])), ?_⟩
    show '<' :: (t.data ++ '>' :: (serializeList cs ++ '<' :: '/' :: (t.data ++ ['>'])))
        = _
    rw [hab]
    simp [List.append_assoc]
theorem serializeL_contains : ∀ (cs : List Node) (i : Nat) (p : List Nat) (d : Str),
    textAtL cs i p = some d → ∃ a b, serializeList cs = a ++ (d ++ b)
  | [], i, p, d, h => by simp [textAtL] at h
  | c :: cs, 0, p, d, h => by
    obtain ⟨a, b, hab⟩ := serialize_contains c p d h
    refine ⟨a, b ++ serializeList cs, ?_⟩
    show serializeNode c ++ serializeList cs = _
    rw [hab]
    simp [List.append_assoc]
  | c :: cs, i + 1, p, d, h => by
    obtain ⟨a, b, hab⟩ := serializeL_contains cs i p d h
    refine ⟨serializeNode c ++ a, b, ?_⟩
    show serializeNode c ++ serializeList cs = _
    rw [hab]
    simp [List.append_assoc]
end

/- ## Extraction lemmas -/

theorem directFragments_sound (t : String) :
    ∀ (cs : List Node) (j0 : Nat) (f : Fragment), f ∈ directFragments t cs j0 →
      ∃ k d, f.path = [j0 + k] ∧ cs[k]? = some (.text d) ∧
        f.originalText = d ∧ f.trimmedText = jsTrim d ∧ qualifies d = true ∧
        f.priority = priorityOf t ∧ f.tagName = t := by
  intro cs
  induction cs with
  | nil => intro j0 f h; simp [directFragments] at h
  | cons c cs ih =>
    intro j0 f h
    cases c with
    | text d =>
      simp only [directFragments] at h
      rw [List.mem_append] at h
      cases h with
      | inl h1 =>
        by_cases hq : qualifies d = true
        · rw [if_pos hq] at h1
          have hf : f = ⟨[j0], d, jsTrim d, priorityOf t, t⟩ := by simpa using h1
          subst hf
          exact ⟨0, d, by simp, by simp, rfl, rfl, hq, rfl, rfl⟩
        · rw [if_neg hq] at h1
          simp at h1
      | inr h2 =>
        obtain ⟨k, d2, hp, hg, ho, ht2, hq, hpr, htn⟩ := ih (j0 + 1) f h2
        refine ⟨k + 1, d2, ?_, by simpa using hg, ho, ht2, hq, hpr, htn⟩
        rw [hp]
        have : j0 + 1 + k = j0 + (k + 1) := by omega
        rw [this]
    | element t2 cs2 =>
      simp only [directFragments] at h
      obtain ⟨k, d2, hp, hg, ho, ht2, hq, hpr, htn⟩ := ih (j0 + 1) f h
      refine ⟨k + 1, d2, ?_, by simpa using hg, ho, ht2, hq, hpr, htn⟩
      rw [hp]
      have : j0 + 1 + k = j0 + (k + 1) := by omega
      rw [this]

mutual
theorem collectNode_sound : ∀ (n : Node) (f : Fragment),
    f ∈ collectNode n → FragSound n f
  | .text _, f, h => by simp [collectNode] at h
  | .element t cs, f, h => by
    simp only [collectNode] at h
    rw [List.mem_append] at h
    cases h with
    | inl hdir =>
      by_cases ht : t ∈ nonTranslatableTags
      · rw [if_pos ht] at hdir
        simp at hdir
      · rw [if_neg ht] at hdir
        obtain ⟨k, d, hp, hg, ho, htr, hq, hpr, htn⟩ :=
          directFragments_sound t cs 0 f hdir
        have hk : f.path = [k] := by rw [hp]; simp
        obtain ⟨hlt, _⟩ := List.getElem?_eq_some.mp hg
        refine ⟨by rw [hk]; simp, ?_, by rw [← ho] at htr; exact htr,
          by rw [ho]; exact hq, ?_, by rw [htn]; exact ht,
          by rw [htn]; exact hpr⟩
        · rw [hk]
          show textAtL cs k [] = some f.originalText
          rw [textAtL_get cs k [] _ hg, ho]
          rfl
        · rw [hk]
          show (if k < cs.length then some t else none) = some f.tagName
          rw [if_pos hlt, htn]
    | inr hlist =>
      obtain ⟨k, c, f0, hg, hf0, hfe, hs⟩ := collectList_sound cs 0 f hlist
      obtain ⟨hne0, htx0, htr0, hq0, hct0, hnt0, hpr0⟩ := hs
      have hk : f.path = k :: f0.path := by rw [hfe]; simp
      have horig : f.originalText = f0.originalText := by rw [hfe]
      have htrf : f.trimmedText = f0.trimmedText := by rw [hfe]
      have htagf : f.tagName = f0.tagName := by rw [hfe]
      have hprf : f.priority = f0.priority := by rw [hfe]
      obtain ⟨x, xs, hxs⟩ : ∃ x xs, f0.path = x :: xs := by
        cases hc : f0.path with
        | nil => exact absurd hc hne0
        | cons a b => exact ⟨a, b, rfl⟩
      refine ⟨by rw [hk]; simp, ?_, by rw [htrf, horig]; exact htr0,
        by rw [horig]; exact hq0, ?_, by rw [htagf]; exact hnt0,
        by rw [hprf, htagf]; exact hpr0⟩
      · rw [hk]
        show textAtL cs k f0.path = some f.originalText
        rw [textAtL_get cs k f0.path c hg, horig]
        exact htx0
      · rw [hk, hxs]
        show containerTagL cs k (x :: xs) = some f.tagName
        rw [containerTagL_get cs k (x :: xs) c hg, htagf, ← hxs]
        exact hct0
theorem collectList_sound : ∀ (cs : List Node) (j0 : Nat) (f : Fragment),
    f ∈ collectList cs j0 →
    ∃ k c f0, cs[k]? = some c ∧ f0 ∈ collectNode c ∧
      f = { f0 with path := (j0 + k) :: f0.path } ∧ FragSound c f0
  | [], j0, f, h => by simp [collectList] at h
  | c :: cs, j0, f, h => by
    simp only [collectList] at h
    rw [List.mem_append] at h
    cases h with
    | inl h1 =>
      rw [List.mem_map] at h1
      obtain ⟨f0, hf0, hfe⟩ := h1
      exact ⟨0, c, f0, by simp, hf0, by rw [← hfe]; simp, collectNode_sound c f0 hf0⟩
    | inr h2 =>
      obtain ⟨k, c2, f0, hg, hf0, hfe, hs⟩ := collectList_sound cs (j0 + 1) f h2
      refine ⟨k + 1, c2, f0, by simpa using hg, hf0, ?_, hs⟩
      rw [hfe]
      have : j0 + 1 + k = j0 + (k + 1) := by omega
      rw [this]
end

theorem directFragments_nodup (t : String) :
    ∀ (cs : List Node) (j0 : Nat),
      (directFragments t cs j0).Pairwise (fun f g => f.path ≠ g.path) := by
  intro cs
  induction cs with
  | nil => intro j0; simp [directFragments]
  | cons c cs ih =>
    intro j0
    cases c with
    | text d =>
      simp only [directFragments]
      rw [List.pairwise_append]
      refine ⟨?_, ih (j0 + 1), ?_⟩
      · by_cases hq : qualifies d = true
        · rw [if_pos hq]; simp
        · rw [if_neg hq]; simp
      · intro a ha b hb
        have hpa : a.path = [j0] := by
          by_cases hq : qualifies d = true
          · rw [if_pos hq] at ha
            have : a = ⟨[j0], d, jsTrim d, priorityOf t, t⟩ := by simpa using ha
            rw [this]
          · rw [if_neg hq] at ha
            simp at ha
        obtain ⟨k, d2, hpb, _⟩ := directFragments_sound t cs (j0 + 1) b hb
        rw [hpa, hpb]
        intro hco
        have : j0 = j0 + 1 + k := by simpa using hco
        omega
    | element t2 cs2 =>
      simp only [directFragments]
      exact ih (j0 + 1)

mutual
theorem collectNode_nodup : ∀ (n : Node),
    (collectNode n).Pairwise (fun f g => f.path ≠ g.path)
  | .text _ => by simp [collectNode]
  | .element t cs => by
    simp only [collectNode]
    rw [List.pairwise_append]
    refine ⟨?_, collectList_nodup cs 0, ?_⟩
    · by_cases ht : t ∈ nonTranslatableTags
      · rw [if_pos ht]; simp
      · rw [if_neg ht]; exact directFragments_nodup t cs 0
    · intro a ha b hb
      have hpa : ∃ k, a.path = [k] := by
        by_cases ht : t ∈ nonTranslatableTags
        · rw [if_pos ht] at ha; simp at ha
        · rw [if_neg ht] at ha
          obtain ⟨k, d, hp, _⟩ := directFragments_sound t cs 0 a ha
          exact ⟨0 + k, hp⟩
      obtain ⟨k, hpa⟩ := hpa
      obtain ⟨k2, c, f0, hg, hf0, hfe, hs⟩ := collectList_sound cs 0 b hb
      have hpb : b.path = (0 + k2) :: f0.path := by rw [hfe]
      obtain ⟨x, xs, hxs⟩ : ∃ x xs, f0.path = x :: xs := by
        cases hc : f0.path with
        | nil => exact absurd hc hs.1
        | cons u v => exact ⟨u, v, rfl⟩
      rw [hpa, hpb, hxs]
      simp
theorem collectList_nodup : ∀ (cs : List Node) (j0 : Nat),
    (collectList cs j0).Pairwise (fun f g => f.path ≠ g.path)
  | [], j0 => by simp [collectList]
  | c :: cs, j0 => by
    simp only [collectList]
    rw [List.pairwise_append]
    refine ⟨?_, collectList_nodup cs (j0 + 1), ?_⟩
    · rw [List.pairwise_map]
      apply List.Pairwise.imp ?_ (collectNode_nodup c)
      intro f g hfg
      simp only [ne_eq, List.cons.injEq, not_and]
      intro _
      exact hfg
    · intro a ha b hb
      rw [List.mem_map] at ha
      obtain ⟨f0, _, hfa⟩ := ha
      have hpa : a.path = j0 :: f0.path := by rw [← hfa]
      obtain ⟨k, c2, g0, hg, hg0, hgb, _⟩ := collectList_sound cs (j0 + 1) b hb
      have hpb : b.path = (j0 + 1 + k) :: g0.path := by rw [hgb]
      rw [hpa, hpb]
      intro hco
      have : j0 = j0 + 1 + k := (List.cons.injEq _ _ _ _ ▸ hco).1
      omega
end

/- ## Scheduling lemmas -/

theorem insertPrio_perm (x : Fragment) :
    ∀ (l : List Fragment), (insertPrio x l).Perm (x :: l) := by
  intro l
  induction l with
  | nil => exact List.Perm.refl _
  | cons y ys ih =>
    simp only [insertPrio]
    by_cases h : y.priority ≤ x.priority
    · rw [if_pos h]
    · rw [if_neg h]
      exact (List.Perm.cons y ih).trans (List.Perm.swap x y ys)

theorem sortByPriorityDesc_perm :
    ∀ (l : List Fragment), (sortByPriorityDesc l).Perm l := by
  intro l
  induction l with
  | nil => exact List.Perm.refl _
  | cons x xs ih =>
    simp only [sortByPriorityDesc]
    exact (insertPrio_perm x (sortByPriorityDesc xs)).trans (List.Perm.cons x ih)

theorem mem_sortByPriorityDesc {f : Fragment} {l : List Fragment} :
    f ∈ sortByPriorityDesc l ↔ f ∈ l :=
  (sortByPriorityDesc_perm l).mem_iff

theorem insertPrio_sorted (x : Fragment) : ∀ (l : List Fragment),
    l.Pairwise (fun f g => g.priority ≤ f.priority) →
    (insertPrio x l).Pairwise (fun f g => g.priority ≤ f.priority) := by
  intro l
  induction l with
  | nil => intro _; simp [insertPrio]
  | cons y ys ih =>
    intro hs
    rw [List.pairwise_cons] at hs
    obtain ⟨hy, hys⟩ := hs
    simp only [insertPrio]
    by_cases h : y.priority ≤ x.priority
    · rw [if_pos h]
      rw [List.pairwise_cons]
      refine ⟨?_, List.pairwise_cons.mpr ⟨hy, hys⟩⟩
      intro g hg
      rcases List.mem_cons.mp hg with hgy | hgys
      · rw [hgy]; exact h
      · exact le_trans (hy g hgys) h
    · rw [if_neg h]
      rw [List.pairwise_cons]
      refine ⟨?_, ih hys⟩
      intro g hg
      rcases List.mem_cons.mp ((insertPrio_perm x ys).mem_iff.mp hg) with hgx | hgys
      · rw [hgx]; omega
      · exact hy g hgys

theorem sortByPriorityDesc_sorted : ∀ (l : List Fragment),
    (sortByPriorityDesc l).Pairwise (fun f g => g.priority ≤ f.priority) := by
  intro l
  induction l with
  | nil => simp [sortByPriorityDesc]
  | cons x xs ih => exact insertPrio_sorted x (sortByPriorityDesc xs) ih

theorem insertPrio_filter_ne (x : Fragment) (k : Nat) (hx : ¬x.priority = k) :
    ∀ (l : List Fragment), (insertPrio x l).filter (fun f => f.priority == k)
      = l.filter (fun f => f.priority == k) := by
  intro l
  induction l with
  | nil => simp [insertPrio, List.filter_cons, hx]
  | cons y ys ih =>
    simp only [insertPrio]
    by_cases h : y.priority ≤ x.priority
    · rw [if_pos h]
      simp [List.filter_cons, hx]
    · rw [if_neg h]
      simp only [List.filter_cons, ih]

theorem insertPrio_filter_eq (x : Fragment) (k : Nat) (hx : x.priority = k) :
    ∀ (l : List Fragment), (insertPrio x l).filter (fun f => f.priority == k)
      = x :: l.filter (fun f => f.priority == k) := by
  intro l
  induction l with
  | nil => simp [insertPrio, List.filter_cons, hx]
  | cons y ys ih =>
    simp only [insertPrio]
    by_cases h : y.priority ≤ x.priority
    · rw [if_pos h]
      simp [List.filter_cons, hx]
    · rw [if_neg h]
      have hy : ¬y.priority = k := by omega
      simp only [List.filter_cons, ih]
      simp [hy]

theorem sortByPriorityDesc_filter (k : Nat) : ∀ (l : List Fragment),
    (sortByPriorityDesc l).filter (fun f => f.priority == k)
      = l.filter (fun f => f.priority == k) := by
  intro l
  induction l with
  | nil => rfl
  | cons x xs ih =>
    simp only [sortByPriorityDesc]
    by_cases hx : x.priority = k
    · rw [insertPrio_filter_eq x k hx (sortByPriorityDesc xs), ih,
        List.filter_cons, if_pos (by simpa using hx)]
    · rw [insertPrio_filter_ne x k hx (sortByPriorityDesc xs), ih,
        List.filter_cons, if_neg (by simpa using hx)]

/- ## Pipeline fold lemmas -/

theorem processSequentialTranslation_eq_foldl (svc : Str → SvcBehavior) :
    ∀ (l : List Fragment) (doc : Node),
      processSequentialTranslation svc doc l = l.foldl (processItem svc) doc := by
  intro l
  induction l with
  | nil => intro doc; rfl
  | cons f fs ih =>
    intro doc
    show (chunks1 (f :: fs)).foldl _ doc = _
    simp only [chunks1, List.foldl_cons]
    exact ih (processItem svc doc f)

theorem processItem_textAt_ne (svc : Str → SvcBehavior) (doc : Node) (f : Fragment)
    (q : List Nat) (h : q ≠ f.path) :
    textAt (processItem svc doc f) q = textAt doc q := by
  rcases hni : itemNewText svc f with _ | s
  · simp only [processItem, hni]
  · simp only [processItem, hni]
    exact textAt_update_ne doc f.path s q h

theorem processItem_textAt_self (svc : Str → SvcBehavior) (doc : Node)
    (f : Fragment) (x : Str) (h : textAt doc f.path = some x) :
    textAt (processItem svc doc f) f.path = some (outcomeText svc f x) := by
  rcases hni : itemNewText svc f with _ | s
  · simp only [processItem, outcomeText, hni]
    exact h
  · simp only [processItem, outcomeText, hni]
    exact textAt_update_self doc f.path s x h

theorem foldl_textAt_not_mem (svc : Str → SvcBehavior) :
    ∀ (l : List Fragment) (doc : Node) (q : List Nat),
    (∀ f ∈ l, f.path ≠ q) →
    textAt (l.foldl (processItem svc) doc) q = textAt doc q := by
  intro l
  induction l with
  | nil => intro doc q _; rfl
  | cons f fs ih =>
    intro doc q h
    rw [List.foldl_cons]
    rw [ih (processItem svc doc f) q (fun g hg => h g (by simp [hg]))]
    exact processItem_textAt_ne svc doc f q (fun he => h f (by simp) he.symm)

theorem foldl_textAt_mem (svc : Str → SvcBehavior) :
    ∀ (l : List Fragment) (doc : Node) (g : Fragment) (x : Str),
    l.Pairwise (fun a b => a.path ≠ b.path) → g ∈ l →
    textAt doc g.path = some x →
    textAt (l.foldl (processItem svc) doc) g.path = some (outcomeText svc g x) := by
  intro l
  induction l with
  | nil => intro doc g x _ hg _; simp at hg
  | cons f fs ih =>
    intro doc g x hpw hg hx
    rw [List.pairwise_cons] at hpw
    obtain ⟨hf, hfs⟩ := hpw
    rw [List.foldl_cons]
    rcases List.mem_cons.mp hg with hfg | hmem
    · subst hfg
      rw [foldl_textAt_not_mem svc fs _ g.path (fun a ha => (hf a ha).symm)]
      exact processItem_textAt_self svc doc g x hx
    · have hne : f.path ≠ g.path := hf g hmem
      rw [← processItem_textAt_ne svc doc f g.path (fun he => hne he.symm)] at hx
      exact ih (processItem svc doc f) g x hfs hmem hx

/- ## Retry dispatcher lemmas -/

theorem countEv_nil (p : REvent → Bool) : countEv p [] = 0 := rfl

theorem countEv_cons (p : REvent → Bool) (e : REvent) (l : List REvent) :
    countEv p (e :: l) = (if p e then 1 else 0) + countEv p l := by
  simp only [countEv, List.filter_cons]
  split
  · simp [Nat.add_comm]
  · simp

theorem countEv_append (p : REvent → Bool) (l1 l2 : List REvent) :
    countEv p (l1 ++ l2) = countEv p l1 + countEv p l2 := by
  simp [countEv, List.filter_append]

theorem retryGo_counts (svc : SvcBehavior) (index : Nat) (jit : Nat → Nat) :
    ∀ (remaining attempt : Nat),
      countEv isAttemptEv (retryGo svc index jit remaining attempt).1 ≤ remaining ∧
      countEv isAcquireEv (retryGo svc index jit remaining attempt).1
        = countEv isAttemptEv (retryGo svc index jit remaining attempt).1 ∧
      countEv isStaggerEv (retryGo svc index jit remaining attempt).1
        = (if 0 < index
           then countEv isAttemptEv (retryGo svc index jit remaining attempt).1
           else 0) := by
  intro remaining
  induction remaining with
  | zero =>
    intro attempt
    simp [retryGo, countEv_nil]
  | succ rem ih =>
    intro attempt
    obtain ⟨ih1, ih2, ih3⟩ := ih (attempt + 1)
    rcases ho : attemptOutcome (svc attempt) with cause | t
    · by_cases hr : rem = 0
      · simp only [retryGo, ho, if_pos hr]
        by_cases hidx : 0 < index <;>
          simp [staggerEvents, hidx, countEv_cons, countEv_append, countEv_nil,
            isAttemptEv, isAcquireEv, isStaggerEv]
      · simp only [retryGo, ho, if_neg hr]
        by_cases hidx : 0 < index <;>
          simp only [staggerEvents, if_pos, if_neg, hidx, countEv_cons,
            countEv_append, countEv_nil, isAttemptEv, isAcquireEv, isStaggerEv,
            if_true, if_false, ite_true, ite_false] <;>
          simp [ih1, ih2, ih3, hidx] <;> omega
    · simp only [retryGo, ho]
      by_cases hidx : 0 < index <;>
        simp [staggerEvents, hidx, countEv_cons, countEv_append, countEv_nil,
          isAttemptEv, isAcquireEv, isStaggerEv]

theorem attemptOutcome_ok_ne_empty (r : Except Str (Option Str)) (t : Str)
    (h : attemptOutcome r = .ok t) : t.isEmpty = false := by
  rcases r with m | o
  · simp [attemptOutcome] at h
  · rcases o with _ | t2
    · simp [attemptOutcome] at h
    · simp only [attemptOutcome] at h
      by_cases he : t2.isEmpty = true
      · rw [if_pos he] at h
        simp at h
      · rw [if_neg he] at h
        cases h
        simpa using he

theorem countCovered_nil (pa pb : REvent → Bool) (credit : Nat) :
    countCovered pa pb credit [] := by
  intro n
  simp [countEv_nil]

theorem countCovered_cons_b (pa pb : REvent → Bool) (credit : Nat) (e : REvent)
    (l : List REvent) (hpa : pa e = false) (hpb : pb e = true)
    (h : countCovered pa pb (credit + 1) l) : countCovered pa pb credit (e :: l) := by
  intro n
  cases n with
  | zero => simp [countEv_nil]
  | succ m =>
    rw [List.take_succ_cons, countEv_cons, countEv_cons, hpa, hpb]
    have := h m
    simp only [if_true]
    simp only [show (false = true) = False by simp, if_false]
    omega

theorem countCovered_cons_a (pa pb : REvent → Bool) (credit : Nat) (e : REvent)
    (l : List REvent) (hpa : pa e = true) (hpb : pb e = false)
    (h : countCovered pa pb credit l) : countCovered pa pb (credit + 1) (e :: l) := by
  intro n
  cases n with
  | zero => simp [countEv_nil]
  | succ m =>
    rw [List.take_succ_cons, countEv_cons, countEv_cons, hpa, hpb]
    have := h m
    simp only [if_true]
    simp only [show (false = true) = False by simp, if_false]
    omega

theorem countCovered_cons_n (pa pb : REvent → Bool) (credit : Nat) (e : REvent)
    (l : List REvent) (hpa : pa e = false) (hpb : pb e = false)
    (h : countCovered pa pb credit l) : countCovered pa pb credit (e :: l) := by
  intro n
  cases n with
  | zero => simp [countEv_nil]
  | succ m =>
    rw [List.take_succ_cons, countEv_cons, countEv_cons, hpa, hpb]
    have := h m
    simp only [show (false = true) = False by simp, if_false]
    omega

theorem countCovered_append0 (pa pb : REvent → Bool) (l1 l2 : List REvent)
    (h1 : countCovered pa pb 0 l1) (h2 : countCovered pa pb 0 l2) :
    countCovered pa pb 0 (l1 ++ l2) := by
  intro n
  rw [List.take_append_eq_append_take, countEv_append, countEv_append]
  have ha := h1 n
  have hb := h2 (n - l1.length)
  omega

theorem preEvents_covered_acquire (index attempt : Nat) :
    countCovered isAttemptEv isAcquireEv 0
      (.acquire :: (staggerEvents index ++ [.attempt attempt])) := by
  apply countCovered_cons_b _ _ _ _ _ rfl rfl
  by_cases hidx : 0 < index
  · simp only [staggerEvents, if_pos hidx, List.cons_append, List.nil_append]
    apply countCovered_cons_n _ _ _ _ _ rfl rfl
    exact countCovered_cons_a _ _ 0 _ _ rfl rfl (countCovered_nil _ _ _)
  · simp only [staggerEvents, if_neg hidx, List.nil_append]
    exact countCovered_cons_a _ _ 0 _ _ rfl rfl (countCovered_nil _ _ _)

theorem preEvents_covered_stagger (index attempt : Nat) (hidx : 0 < index) :
    countCovered isAttemptEv isStaggerEv 0
      (.acquire :: (staggerEvents index ++ [.attempt attempt])) := by
  apply countCovered_cons_n _ _ _ _ _ rfl rfl
  simp only [staggerEvents, if_pos hidx, List.cons_append, List.nil_append]
  apply countCovered_cons_b _ _ _ _ _ rfl rfl
  exact countCovered_cons_a _ _ 0 _ _ rfl rfl (countCovered_nil _ _ _)

theorem retryGo_acquire_covers (svc : SvcBehavior) (index : Nat) (jit : Nat → Nat) :
    ∀ (remaining attempt : Nat),
      countCovered isAttemptEv isAcquireEv 0
        (retryGo svc index jit remaining attempt).1 := by
  intro remaining
  induction remaining with
  | zero => intro attempt; exact countCovered_nil _ _ _
  | succ rem ih =>
    intro attempt
    rcases ho : attemptOutcome (svc attempt) with cause | t
    · by_cases hr : rem = 0
      · simp only [retryGo, ho, if_pos hr]
        exact preEvents_covered_acquire index attempt
      · simp only [retryGo, ho, if_neg hr]
        apply countCovered_append0 _ _ _ _ (preEvents_covered_acquire index attempt)
        exact countCovered_cons_n _ _ _ _ _ rfl rfl (ih (attempt + 1))
    · simp only [retryGo, ho]
      exact preEvents_covered_acquire index attempt

theorem retryGo_stagger_covers (svc : SvcBehavior) (index : Nat) (jit : Nat → Nat)
    (hidx : 0 < index) : ∀ (remaining attempt : Nat),
      countCovered isAttemptEv isStaggerEv 0
        (retryGo svc index jit remaining attempt).1 := by
  intro remaining
  induction remaining with
  | zero => intro attempt; exact countCovered_nil _ _ _
  | succ rem ih =>
    intro attempt
    rcases ho : attemptOutcome (svc attempt) with cause | t
    · by_cases hr : rem = 0
      · simp only [retryGo, ho, if_pos hr]
        exact preEvents_covered_stagger index attempt hidx
      · simp only [retryGo, ho, if_neg hr]
        apply countCovered_append0 _ _ _ _ (preEvents_covered_stagger index attempt hidx)
        exact countCovered_cons_n _ _ _ _ _ rfl rfl (ih (attempt + 1))
    · simp only [retryGo, ho]
      exact preEvents_covered_stagger index attempt hidx

theorem retryGo_error (svc : SvcBehavior) (index : Nat) (jit : Nat → Nat) :
    ∀ (remaining attempt : Nat) (e : Str),
    (retryGo svc index jit remaining attempt).2 = .error e →
    e = msgAllRetriesPre ++ lastCause svc (attempt + remaining - 1) ∧
    countEv isAttemptEv (retryGo svc index jit remaining attempt).1 = remaining := by
  intro remaining
  induction remaining with
  | zero => intro attempt e h; simp [retryGo] at h
  | succ rem ih =>
    intro attempt e h
    rcases ho : attemptOutcome (svc attempt) with cause | t
    · by_cases hr : rem = 0
      · simp only [retryGo, ho, if_pos hr] at h ⊢
        constructor
        · have he : msgAllRetriesPre ++ cause = e := Except.error.inj h
          rw [← he]
          have hidx2 : attempt + (rem + 1) - 1 = attempt := by omega
          rw [hidx2]
          simp only [lastCause, ho]
        · subst hr
          by_cases hidx : 0 < index <;>
            simp [staggerEvents, hidx, countEv_cons, countEv_append, countEv_nil,
              isAttemptEv]
      · simp only [retryGo, ho, if_neg hr] at h ⊢
        obtain ⟨he, hc⟩ := ih (attempt + 1) e h
        constructor
        · rw [he]
          have h3 : attempt + 1 + rem - 1 = attempt + (rem + 1) - 1 := by omega
          rw [h3]
        · by_cases hidx : 0 < index <;>
            (simp [staggerEvents, hidx, countEv_cons, countEv_append, countEv_nil,
              isAttemptEv, hc]; omega)
    · simp only [retryGo, ho] at h
      simp at h

theorem retryGo_result (svc : SvcBehavior) (index : Nat) (jit : Nat → Nat) :
    ∀ (remaining attempt : Nat), 1 ≤ remaining →
    (retryGo svc index jit remaining attempt).2 ≠ .ok none ∧
    (∀ t, (retryGo svc index jit remaining attempt).2 = .ok (some t) →
      t.isEmpty = false) := by
  intro remaining
  induction remaining with
  | zero => intro attempt h; omega
  | succ rem ih =>
    intro attempt _
    rcases ho : attemptOutcome (svc attempt) with cause | t
    · by_cases hr : rem = 0
      · simp only [retryGo, ho, if_pos hr]
        exact ⟨by simp, by simp⟩
      · simp only [retryGo, ho, if_neg hr]
        exact ih (attempt + 1) (by omega)
    · simp only [retryGo, ho]
      refine ⟨by simp, ?_⟩
      intro t2 ht2
      have : t = t2 := by simpa using ht2
      rw [← this]
      exact attemptOutcome_ok_ne_empty (svc attempt) t ho

theorem retryGo_stagger_val (svc : SvcBehavior) (index : Nat) (jit : Nat → Nat) :
    ∀ (remaining attempt d : Nat),
    REvent.stagger d ∈ (retryGo svc index jit remaining attempt).1 →
    d = index * 100 := by
  intro remaining
  induction remaining with
  | zero => intro attempt d h; simp [retryGo] at h
  | succ rem ih =>
    intro attempt d h
    have hpre : ∀ (a : Nat), REvent.stagger d ∈
        (REvent.acquire :: (staggerEvents index ++ [REvent.attempt a])) →
        d = index * 100 := by
      intro a hm
      rcases List.mem_cons.mp hm with h1 | h2
      · cases h1
      · rcases List.mem_append.mp h2 with h3 | h4
        · by_cases hidx : 0 < index
          · simp only [staggerEvents, if_pos hidx] at h3
            have : REvent.stagger d = REvent.stagger (index * 100) := by simpa using h3
            cases this
            rfl
          · simp [staggerEvents, hidx] at h3
        · simp at h4
    rcases ho : attemptOutcome (svc attempt) with cause | t
    · by_cases hr : rem = 0
      · simp only [retryGo, ho, if_pos hr] at h
        exact hpre attempt h
      · simp only [retryGo, ho, if_neg hr] at h
        rcases List.mem_append.mp h with h1 | h2
        · exact hpre attempt h1
        · rcases List.mem_cons.mp h2 with h3 | h4
          · cases h3
          · exact ih (attempt + 1) d h4
    · simp only [retryGo, ho] at h
      exact hpre attempt h

theorem retryGo_snd_congr (svc : SvcBehavior) (i1 i2 : Nat) (j1 j2 : Nat → Nat) :
    ∀ (remaining attempt : Nat),
    (retryGo svc i1 j1 remaining attempt).2 = (retryGo svc i2 j2 remaining attempt).2 := by
  intro remaining
  induction remaining with
  | zero => intro attempt; rfl
  | succ rem ih =>
    intro attempt
    rcases ho : attemptOutcome (svc attempt) with cause | t
    · by_cases hr : rem = 0
      · simp only [retryGo, ho, if_pos hr]
      · simp only [retryGo, ho, if_neg hr]
        exact ih (attempt + 1)
    · simp only [retryGo, ho]

/- ## Rate limiter lemmas -/

theorem processQueue_nonpos (maxR W : Int) (h : maxR ≤ 0) :
    ∀ (fuel : Nat) (now : Int) (reqs : List Int) (pending : Nat),
      processQueue maxR W fuel now reqs pending = [] := by
  intro fuel
  induction fuel with
  | zero => intro now reqs pending; rfl
  | succ f ih =>
    intro now reqs pending
    cases pending with
    | zero => rfl
    | succ p =>
      simp only [processQueue]
      rw [if_neg]
      · exact ih _ _ _
      · intro hlt
        have h0 : (0 : Int) ≤ ((purgeRequests W now reqs).length : Int) :=
          Int.natCast_nonneg _
        omega

theorem length_filter_split {α : Type} (p q : α → Bool) :
    ∀ (l : List α), (l.filter p).length
      = ((l.filter q).filter p).length
        + ((l.filter (fun x => !q x)).filter p).length := by
  intro l
  induction l with
  | nil => rfl
  | cons x xs ih =>
    by_cases hp : p x = true <;> by_cases hq : q x = true <;>
      simp [List.filter_cons, hp, hq, ih] <;> omega

theorem windowCount_append (W t : Int) (l1 l2 : List Int) :
    windowCount W (l1 ++ l2) t = windowCount W l1 t + windowCount W l2 t := by
  simp [windowCount, List.filter_append]

theorem windowCount_le_length (W t : Int) (l : List Int) :
    windowCount W l t ≤ l.length :=
  List.length_filter_le _ _

theorem windowCount_eq_zero (W t : Int) (l : List Int)
    (h : ∀ a ∈ l, inWindow W t a = false) : windowCount W l t = 0 := by
  unfold windowCount
  rw [List.filter_eq_nil_iff.mpr (fun a ha => by rw [h a ha]; simp)]
  rfl

theorem windowCount_split_purge (W now t : Int) (reqs : List Int) :
    windowCount W reqs t
      = windowCount W (purgeRequests W now reqs) t
        + windowCount W (reqs.filter (fun r => !(decide (now - r < W)))) t := by
  unfold windowCount purgeRequests
  exact length_filter_split (inWindow W t) (fun r => decide (now - r < W)) reqs

theorem window_no_overlap (W now t r : Int) (hrW : W ≤ now - r)
    (hin : inWindow W t r = true) :
    ∀ (a : Int), now ≤ a → inWindow W t a = false := by
  intro a ha
  simp only [inWindow, Bool.and_eq_true, decide_eq_true_eq] at hin
  obtain ⟨hrt, hrw⟩ := hin
  have hat : ¬(a ≤ t) := by omega
  unfold inWindow
  rw [decide_eq_false hat]
  simp

theorem processQueue_sound (maxR W : Int) :
    ∀ (fuel : Nat) (now : Int) (reqs : List Int) (pending : Nat),
      (∀ r ∈ reqs, r ≤ now) → ((reqs.length : Int) ≤ maxR) →
      (∀ a ∈ processQueue maxR W fuel now reqs pending, now ≤ a) ∧
      (∀ t, ((windowCount W (reqs ++ processQueue maxR W fuel now reqs pending) t : Int)
          ≤ maxR)) := by
  intro fuel
  induction fuel with
  | zero =>
    intro now reqs pending hle hlen
    refine ⟨fun a ha => by simp [processQueue] at ha, fun t => ?_⟩
    simp only [processQueue, List.append_nil]
    calc (windowCount W reqs t : Int) ≤ (reqs.length : Int) := by
          exact_mod_cast windowCount_le_length W t reqs
      _ ≤ maxR := hlen
  | succ f ih =>
    intro now reqs pending hle hlen
    cases pending with
    | zero =>
      refine ⟨fun a ha => by simp [processQueue] at ha, fun t => ?_⟩
      simp only [processQueue, List.append_nil]
      calc (windowCount W reqs t : Int) ≤ (reqs.length : Int) := by
            exact_mod_cast windowCount_le_length W t reqs
        _ ≤ maxR := hlen
    | succ p =>
      simp only [processQueue]
      have hsubP : ∀ r ∈ purgeRequests W now reqs, r ≤ now := fun r hr =>
        hle r (List.mem_filter.mp hr).1
      have hlenP : ((purgeRequests W now reqs).length : Int) ≤ (reqs.length : Int) := by
        exact_mod_cast (List.filter_sublist reqs).length_le
      by_cases hadm : (((purgeRequests W now reqs).length : Nat) : Int) < maxR
      · rw [if_pos hadm]
        have h1 : ∀ r ∈ purgeRequests W now reqs ++ [now], r ≤ now + 100 := by
          intro r hr
          rcases List.mem_append.mp hr with h | h
          · have := hsubP r h; omega
          · simp at h; omega
        have h2 : (((purgeRequests W now reqs ++ [now]).length : Nat) : Int) ≤ maxR := by
          rw [List.length_append]
          push_cast
          simp only [List.length_cons, List.length_nil]
          omega
        obtain ⟨iha, ihc⟩ := ih (now + 100) (purgeRequests W now reqs ++ [now]) p h1 h2
        constructor
        · intro a ha
          rcases List.mem_cons.mp ha with h | h
          · omega
          · have := iha a h; omega
        · intro t
          have hik := ihc t
          rw [List.append_assoc] at hik
          rw [windowCount_append, windowCount_append] at hik
          rw [windowCount_append, windowCount_split_purge W now t reqs]
          have hsing : windowCount W
              ([now] ++ processQueue maxR W f (now + 100)
                  (purgeRequests W now reqs ++ [now]) p) t
              = windowCount W (now :: processQueue maxR W f (now + 100)
                  (purgeRequests W now reqs ++ [now]) p) t := rfl
          rw [windowCount_append] at hsing
          by_cases hD : windowCount W
              (reqs.filter (fun r => !(decide (now - r < W)))) t = 0
          · rw [hD]
            push_cast at hik ⊢
            omega
          · obtain ⟨r, hrmem, hrin⟩ :
                ∃ r ∈ reqs.filter (fun r => !(decide (now - r < W))),
                  inWindow W t r = true := by
              by_contra hno
              push_neg at hno
              refine hD (windowCount_eq_zero W t _ (fun a ha => ?_))
              have hna := hno a ha
              cases hax : inWindow W t a
              · rfl
              · exact absurd hax hna
            have hrW : W ≤ now - r := by
              have h3 := (List.mem_filter.mp hrmem).2
              simp only [Bool.not_eq_true', decide_eq_false_iff_not] at h3
              omega
            have hz : windowCount W (now :: processQueue maxR W f (now + 100)
                (purgeRequests W now reqs ++ [now]) p) t = 0 := by
              apply windowCount_eq_zero
              intro a ha
              apply window_no_overlap W now t r hrW hrin
              rcases List.mem_cons.mp ha with h | h
              · omega
              · have := iha a h; omega
            have hwr := windowCount_split_purge W now t reqs
            have h4 := windowCount_le_length W t reqs
            push_cast
            omega
      · rw [if_neg hadm]
        rcases hPc : purgeRequests W now reqs with _ | ⟨r0, P2⟩
        · have hm : maxR ≤ 0 := by
            rw [hPc] at hadm
            simp at hadm
            omega
          rw [processQueue_nonpos maxR W hm]
          refine ⟨fun a ha => by simp at ha, fun t => ?_⟩
          rw [List.append_nil]
          calc (windowCount W reqs t : Int) ≤ (reqs.length : Int) := by
                exact_mod_cast windowCount_le_length W t reqs
            _ ≤ maxR := hlen
        · have hr0mem : r0 ∈ purgeRequests W now reqs := by rw [hPc]; simp
          have hr0win : now - r0 < W := by
            have h3 := (List.mem_filter.mp hr0mem).2
            simpa using h3
          have hnow2 : now ≤ now + (W - (now - (r0 :: P2).headD 0) + 50) := by
            simp only [List.headD_cons]
            omega
          have h1 : ∀ r ∈ r0 :: P2, r ≤ now + (W - (now - (r0 :: P2).headD 0) + 50) := by
            intro r hr
            have hr2 : r ∈ purgeRequests W now reqs := by rw [hPc]; exact hr
            have := hsubP r hr2
            omega
          have h2 : (((r0 :: P2).length : Nat) : Int) ≤ maxR := by
            rw [← hPc]
            omega
          obtain ⟨iha, ihc⟩ := ih (now + (W - (now - (r0 :: P2).headD 0) + 50))
            (r0 :: P2) (p + 1) h1 h2
          constructor
          · intro a ha
            have := iha a ha
            omega
          · intro t
            have hik := ihc t
            rw [windowCount_append] at hik ⊢
            rw [windowCount_split_purge W now t reqs, hPc]
            by_cases hD : windowCount W
                (reqs.filter (fun r => !(decide (now - r < W)))) t = 0
            · rw [hD]
              push_cast at hik ⊢
              omega
            · obtain ⟨r, hrmem, hrin⟩ :
                  ∃ r ∈ reqs.filter (fun r => !(decide (now - r < W))),
                    inWindow W t r = true := by
                by_contra hno
                push_neg at hno
                refine hD (windowCount_eq_zero W t _ (fun a ha => ?_))
                have hna := hno a ha
                cases hax : inWindow W t a
                · rfl
                · exact absurd hax hna
              have hrW : W ≤ now - r := by
                have h3 := (List.mem_filter.mp hrmem).2
                simp only [Bool.not_eq_true', decide_eq_false_iff_not] at h3
                omega
              have hz : windowCount W (processQueue maxR W f
                  (now + (W - (now - (r0 :: P2).headD 0) + 50)) (r0 :: P2) (p + 1)) t
                  = 0 := by
                apply windowCount_eq_zero
                intro a ha
                apply window_no_overlap W now t r hrW hrin
                have := iha a ha
                omega
              rw [hz]
              have hwr := windowCount_split_purge W now t reqs
              rw [hPc] at hwr
              have h4 := windowCount_le_length W t reqs
              push_cast
              omega

/- ## Echo-service lemmas -/

theorem retryGo_first_ok (svc : SvcBehavior) (index : Nat) (jit : Nat → Nat)
    (remaining attempt : Nat) (t : Str) (h : attemptOutcome (svc attempt) = .ok t) :
    (retryGo svc index jit (remaining + 1) attempt).2 = .ok (some t) := by
  simp only [retryGo, h]

theorem itemNewText_echo (f : Fragment)
    (htr : f.trimmedText = jsTrim f.originalText)
    (hq : qualifies f.originalText = true)
    (hd : '$' ∉ f.trimmedText) :
    itemNewText echoSvc f = some f.originalText := by
  have hlen : (jsTrim f.originalText).length > 1 := by
    unfold qualifies at hq
    rw [Bool.and_eq_true] at hq
    exact of_decide_eq_true hq.1
  have hne : f.trimmedText ≠ [] := by
    rw [htr]
    intro hh
    rw [hh] at hlen
    simp at hlen
  obtain ⟨c, cs, hcc⟩ : ∃ c cs, f.trimmedText = c :: cs := by
    cases hc : f.trimmedText with
    | nil => exact absurd hc hne
    | cons a b => exact ⟨a, b, rfl⟩
  have hout : attemptOutcome (echoSvc f.trimmedText 1) = .ok f.trimmedText := by
    simp only [echoSvc, attemptOutcome]
    rw [if_neg]
    rw [hcc]
    simp
  have hres : (translateWithRetry (echoSvc f.trimmedText) 0 (fun _ => 0) 5).2
      = .ok (some f.trimmedText) :=
    retryGo_first_ok (echoSvc f.trimmedText) 0 (fun _ => 0) 4 1 f.trimmedText hout
  have hjt : jsTrim f.trimmedText = f.trimmedText := by
    rw [htr, jsTrim_idem]
  have hne2 : jsTrim f.originalText ≠ [] := by
    intro hh
    rw [hh] at hlen
    simp at hlen
  have hd2 : '$' ∉ jsTrim f.originalText := by
    rw [← htr]
    exact hd
  simp only [itemNewText, hres]
  rw [if_pos]
  · rw [htr, replaceFirst_trim_echo f.originalText hne2 hd2]
  · rw [hjt, hcc]
    simp

theorem processItem_echo (doc : Node) (f : Fragment)
    (htx : textAt doc f.path = some f.originalText)
    (htr : f.trimmedText = jsTrim f.originalText)
    (hq : qualifies f.originalText = true)
    (hd : '$' ∉ f.trimmedText) :
    processItem echoSvc doc f = doc := by
  simp only [processItem, itemNewText_echo f htr hq hd]
  exact updateTextAt_same doc f.path f.originalText htx

theorem foldl_echo : ∀ (l : List Fragment) (doc : Node),
    (∀ f ∈ l, textAt doc f.path = some f.originalText ∧
      f.trimmedText = jsTrim f.originalText ∧ qualifies f.originalText = true ∧
      '$' ∉ f.trimmedText) →
    l.foldl (processItem echoSvc) doc = doc := by
  intro l
  induction l with
  | nil => intro doc _; rfl
  | cons f fs ih =>
    intro doc h
    rw [List.foldl_cons]
    obtain ⟨h1, h2, h3, h4⟩ := h f (by simp)
    rw [processItem_echo doc f h1 h2 h3 h4]
    exact ih doc (fun g hg => h g (by simp [hg]))

theorem translateHtml_echo (input : Str) (body : List Node)
    (hdol : ∀ f ∈ collectNode (cheerioLoad body), '$' ∉ f.trimmedText) :
    translateHtmlStructureOptimized echoSvc input body
      = if (collectNode (cheerioLoad body)).isEmpty then input
        else serializeNode (cheerioLoad body) := by
  simp only [translateHtmlStructureOptimized]
  by_cases hemp : (collectNode (cheerioLoad body)).isEmpty = true
  · rw [if_pos hemp, if_pos hemp]
  · rw [if_neg hemp, if_neg hemp]
    congr 1
    rw [processSequentialTranslation_eq_foldl]
    apply foldl_echo
    intro f hf
    have hf2 : f ∈ collectNode (cheerioLoad body) := mem_sortByPriorityDesc.mp hf
    obtain ⟨_, htx, htr, hq, _, _, _⟩ := collectNode_sound _ f hf2
    exact ⟨htx, htr, hq, hdol f hf2⟩

/- ## Claim theorems -/

/-- C1 (counterexample): running the full pipeline with the identity
translation stub on the markup string `<p>Hello world</p>` does not return
the input byte-identically: cheerio's load normalizes the fragment into a
full `html`/`head`/`body` document, and line 134 re-serializes that
document, so the output is
`<html><head></head><body><p>Hello world</p></body></html>`. -/
theorem c1_counterexample_not_byte_identical :
    translateHtmlStructureOptimized echoSvc exInputBare exBodyBare ≠ exInputBare := by
  decide

/-- C1 (amended): with the identity translation stub, on documents whose
extracted trimmed texts are free of the dollar character the pipeline
never alters the parsed tree, so the output is byte-identical to the
serialization of the freshly parsed input (or to the input itself when no
text node qualifies, line 126); consequently, on such inputs, the output
is byte-identical to the input exactly when cheerio's parse/serialize
round trip is the identity — e.g. full documents already in serialized
form. The dollar proviso is necessary: String.prototype.replace applies
GetSubstitution to the replacement (line 178), so even the echo stub
rewrites the text node a$$b to a$b (third conjunct), although the
parse/serialize round trip is the identity on that input. -/
theorem c1_echo_pipeline_tree_lossless :
    (∀ (input : Str) (body : List Node),
      (∀ f ∈ collectNode (cheerioLoad body), '$' ∉ f.trimmedText) →
      translateHtmlStructureOptimized echoSvc input body
        = if (collectNode (cheerioLoad body)).isEmpty then input
          else serializeNode (cheerioLoad body)) ∧
    (∀ (input : Str) (body : List Node),
      (∀ f ∈ collectNode (cheerioLoad body), '$' ∉ f.trimmedText) →
      serializeNode (cheerioLoad body) = input →
      translateHtmlStructureOptimized echoSvc input body = input) ∧
    (serializeNode (cheerioLoad exBodyDollar) = exInputDollarFull ∧
     translateHtmlStructureOptimized echoSvc exInputDollarFull exBodyDollar
       ≠ exInputDollarFull) := by
  refine ⟨fun input body hd => translateHtml_echo input body hd, ?_,
    by decide, by decide⟩
  intro input body hd h
  rw [translateHtml_echo input body hd]
  by_cases hemp : (collectNode (cheerioLoad body)).isEmpty = true
  · rw [if_pos hemp]
  · rw [if_neg hemp]
    exact h

/-- C1 (witness): on the already-normalized, dollar-free full document the
echo pipeline is byte-identical. -/
theorem c1_witness_full_document :
    (∀ f ∈ collectNode (cheerioLoad exBodyBare), '$' ∉ f.trimmedText) ∧
    serializeNode (cheerioLoad exBodyBare) = exInputFull ∧
    translateHtmlStructureOptimized echoSvc exInputFull exBodyBare = exInputFull :=
  ⟨by decide, by decide,
    c1_echo_pipeline_tree_lossless.2.1 exInputFull exBodyBare
      (by decide) (by decide)⟩

/-- C3: the queue-draining rate limiter (lines 34-80, the instance
`new RateLimiter(3, 1500)`): (1) for every configuration with
non-negative `maxRequests`, every run from an empty window satisfies the
RateWindow invariant — at most `maxRequests` of the admission timestamps
fall within any trailing `timeWindow` interval (entries older than the
window are purged before each admission decision inside `processQueue`);
(2) with `maxRequests = 3`, `timeWindow = 1500`, five back-to-back
`wait()` calls resolve at times 0, 100, 200, 1550, 1650, so the 4th call
completes 1550 ≥ 1500 ms after the 1st. -/
theorem c3_rate_window_invariant_and_timing :
    (∀ (maxR W : Int) (fuel : Nat) (now0 : Int) (pending : Nat) (t : Int),
      0 ≤ maxR →
      ((windowCount W (processQueue maxR W fuel now0 [] pending) t : Int) ≤ maxR)) ∧
    processQueue 3 1500 10 0 [] 5 = [0, 100, 200, 1550, 1650] ∧
    1500 ≤ (processQueue 3 1500 10 0 [] 5).getD 3 0
      - (processQueue 3 1500 10 0 [] 5).getD 0 0 := by
  refine ⟨?_, by decide, by decide⟩
  intro maxR W fuel now0 pending t h
  have hs := (processQueue_sound maxR W fuel now0 [] pending
    (by simp) (by simpa using h)).2 t
  simpa using hs

/-- C3 (witness): the invariant instantiated at the deployed
configuration and a concrete window end. -/
theorem c3_witness :
    (0 : Int) ≤ 3 ∧
    ((windowCount 1500 (processQueue 3 1500 10 0 [] 5) 1600 : Int) ≤ 3) :=
  ⟨by decide, c3_rate_window_invariant_and_timing.1 3 1500 10 0 5 1600 (by decide)⟩

/-- C5: the claim (construction fails with a ConfigurationError on
non-positive configuration) is what the spec requires, but the code's
constructor (lines 36-42) performs no validation: construction succeeds
for `maxRequests ≤ 0` and for `timeWindow ≤ 0`, and with `maxRequests = 0`
the queue never drains — no `wait()` caller is ever admitted, for any
fuel — which is exactly the failure the spec says must be rejected at
construction time. -/
theorem c5_construct_accepts_nonpositive_config :
    RateLimiter.construct 0 1500 = .ok ⟨0, 1500, [], 0, false⟩ ∧
    RateLimiter.construct (-1) 1500 = .ok ⟨-1, 1500, [], 0, false⟩ ∧
    RateLimiter.construct 3 (-1) = .ok ⟨3, -1, [], 0, false⟩ ∧
    (∀ (fuel : Nat) (now : Int) (pending : Nat),
      processQueue 0 1500 fuel now [] pending = []) :=
  ⟨rfl, rfl, rfl, fun fuel now pending =>
    processQueue_nonpos 0 1500 (by omega) fuel now [] pending⟩

/-- C10: when no text node qualifies for extraction the function returns
the input string itself (line 126), byte-identical, for every service —
the parsed tree is never re-serialized. -/
theorem c10_no_qualifying_returns_input (svc : Str → SvcBehavior) (input : Str)
    (body : List Node) (h : collectNode (cheerioLoad body) = []) :
    translateHtmlStructureOptimized svc input body = input := by
  simp [translateHtmlStructureOptimized, h]

/-- C10 (witness): a document whose only text is the purely numeric `42`
extracts nothing, and the pipeline hands back the input string even
though the tree's serialization differs from it. -/
theorem c10_witness :
    collectNode (cheerioLoad exBodyNum) = [] ∧
    serializeNode (cheerioLoad exBodyNum) ≠ exInput42 ∧
    translateHtmlStructureOptimized echoSvc exInput42 exBodyNum = exInput42 :=
  ⟨by decide, by decide,
    c10_no_qualifying_returns_input echoSvc exInput42 exBodyNum (by decide)⟩

/-- C2: a fragment whose every retry attempt fails (the 5-attempt
`translateWithRetry` call of line 176 ends in an error) keeps its original
text byte-identical at its tree position; the failure never propagates
past the scheduler — every extracted fragment's final text is its own
isolated outcome (`outcomeText`, a function of that fragment and its own
service behavior only); the original text of the failed fragment appears
verbatim inside the serialized output; and the pipeline still completes,
returning the serialization of the final document. -/
theorem c2_fragment_failure_isolated (svc : Str → SvcBehavior) (input : Str)
    (body : List Node) (f : Fragment) (e : Str)
    (hf : f ∈ collectNode (cheerioLoad body))
    (hfail : (translateWithRetry (svc f.trimmedText) 0 (fun _ => 0) 5).2 = .error e) :
    textAt (finalDoc svc body) f.path = some f.originalText ∧
    (∀ g ∈ collectNode (cheerioLoad body),
      textAt (finalDoc svc body) g.path = some (outcomeText svc g g.originalText)) ∧
    (∃ a b, serializeNode (finalDoc svc body) = a ++ (f.originalText ++ b)) ∧
    translateHtmlStructureOptimized svc input body
      = serializeNode (finalDoc svc body) := by
  have hall : ∀ g ∈ collectNode (cheerioLoad body),
      textAt (finalDoc svc body) g.path = some (outcomeText svc g g.originalText) := by
    intro g hg
    obtain ⟨_, htx, _, _, _, _, _⟩ := collectNode_sound _ g hg
    unfold finalDoc
    rw [processSequentialTranslation_eq_foldl]
    apply foldl_textAt_mem
    · exact (List.Perm.pairwise_iff (fun hxy => Ne.symm hxy)
        (sortByPriorityDesc_perm _)).mpr (collectNode_nodup _)
    · exact mem_sortByPriorityDesc.mpr hg
    · exact htx
  have ho : outcomeText svc f f.originalText = f.originalText := by
    simp only [outcomeText, itemNewText, hfail]
  have hfe : textAt (finalDoc svc body) f.path = some f.originalText := by
    have h1 := hall f hf
    rw [ho] at h1
    exact h1
  have hne : ¬((collectNode (cheerioLoad body)).isEmpty = true) := by
    intro hemp
    rw [List.isEmpty_iff] at hemp
    rw [hemp] at hf
    simp at hf
  refine ⟨hfe, hall, serialize_contains _ _ _ hfe, ?_⟩
  simp only [translateHtmlStructureOptimized, finalDoc, if_neg hne]

/-- C2 (witness): in a document with two fragments, the service fails
every attempt on the first and echoes the second; the failed fragment's
original text survives byte-identically and the other fragment's outcome
is unaffected. -/
theorem c2_witness :
    frag2 ∈ collectNode (cheerioLoad exBodyTwo) ∧
    (translateWithRetry (svcSel frag2.trimmedText) 0 (fun _ => 0) 5).2
      = .error (msgAllRetriesPre ++ msgBoom) ∧
    textAt (finalDoc svcSel exBodyTwo) frag2.path = some frag2.originalText :=
  ⟨by decide, by rfl,
    (c2_fragment_failure_isolated svcSel [] exBodyTwo frag2
      (msgAllRetriesPre ++ msgBoom) (by decide) (by rfl)).1⟩

/-- C4: a text node whose immediate container role is script, style,
meta, or link, or whose trimmed text is empty, of length ≤ 1, or purely
numeric (digits with optional `.`/`,`), is never extracted — no fragment
carries its path, so it is never sent to translation — and its data is
byte-identical in the final document tree. -/
theorem c4_excluded_never_extracted_unchanged (svc : Str → SvcBehavior)
    (body : List Node) (p : List Nat) (d : Str)
    (hd : textAt (cheerioLoad body) p = some d)
    (hex : (∃ tg, containerTag (cheerioLoad body) p = some tg ∧
        tg ∈ nonTranslatableTags)
      ∨ jsTrim d = [] ∨ (jsTrim d).length ≤ 1 ∨ isOnlyNumbers (jsTrim d) = true) :
    (∀ f ∈ collectNode (cheerioLoad body), f.path ≠ p) ∧
    textAt (finalDoc svc body) p = some d := by
  have hnof : ∀ f ∈ collectNode (cheerioLoad body), f.path ≠ p := by
    intro f hf hfp
    obtain ⟨_, htx, htr, hq, hct, hnt, _⟩ := collectNode_sound _ f hf
    rw [hfp] at htx hct
    have hod : f.originalText = d := Option.some.inj (htx.symm.trans hd)
    unfold qualifies at hq
    rw [Bool.and_eq_true] at hq
    obtain ⟨hq1, hq2⟩ := hq
    have hlen : (jsTrim f.originalText).length > 1 := of_decide_eq_true hq1
    have hnum : isOnlyNumbers (jsTrim f.originalText) = false := by
      cases hb : isOnlyNumbers (jsTrim f.originalText)
      · rfl
      · rw [hb] at hq2
        simp at hq2
    rcases hex with ⟨tg, htg, htgm⟩ | hemp | hle | hnm
    · have htag : f.tagName = tg := Option.some.inj (hct.symm.trans htg)
      rw [← htag] at htgm
      exact hnt htgm
    · rw [hod, hemp] at hlen
      simp at hlen
    · rw [hod] at hlen
      omega
    · rw [hod, hnm] at hnum
      simp at hnum
  refine ⟨hnof, ?_⟩
  unfold finalDoc
  rw [processSequentialTranslation_eq_foldl]
  rw [foldl_textAt_not_mem svc _ _ p
    (fun f hf => hnof f (mem_sortByPriorityDesc.mp hf))]
  exact hd

/-- C4 (witness): script content is excluded by container role and
survives the pipeline byte-identically. -/
theorem c4_witness :
    textAt (cheerioLoad exBodyScript) [1, 0, 0] = some strVar ∧
    containerTag (cheerioLoad exBodyScript) [1, 0, 0] = some tagScript ∧
    tagScript ∈ nonTranslatableTags ∧
    textAt (finalDoc echoSvc exBodyScript) [1, 0, 0] = some strVar :=
  ⟨by decide, by decide, by decide,
    (c4_excluded_never_extracted_unchanged echoSvc exBodyScript [1, 0, 0] strVar
      (by decide) (Or.inl ⟨tagScript, by decide, by decide⟩)).2⟩

/-- C6: `translateWithRetry` makes at most `maxRetries` attempts; the
limiter's `wait()` is acquired once per attempt, and in every prefix of
the event trace the attempts never outnumber the acquisitions (each
attempt is preceded by its acquire); the call never returns the
undefined fall-through and only returns a response whose translated-text
field is non-empty (an empty or missing field is a retried failure); and
when the final attempt fails, the call fails with
`All retries failed: <cause>` carrying the last attempt's underlying
cause, having made exactly `maxRetries` attempts. -/
theorem c6_translateWithRetry_contract (svc : SvcBehavior) (index : Nat)
    (jit : Nat → Nat) (maxRetries : Nat) (h : 1 ≤ maxRetries) :
    countEv isAttemptEv (translateWithRetry svc index jit maxRetries).1 ≤ maxRetries ∧
    countEv isAcquireEv (translateWithRetry svc index jit maxRetries).1
      = countEv isAttemptEv (translateWithRetry svc index jit maxRetries).1 ∧
    (∀ n, countEv isAttemptEv ((translateWithRetry svc index jit maxRetries).1.take n)
      ≤ countEv isAcquireEv ((translateWithRetry svc index jit maxRetries).1.take n)) ∧
    (translateWithRetry svc index jit maxRetries).2 ≠ .ok none ∧
    (∀ t, (translateWithRetry svc index jit maxRetries).2 = .ok (some t) →
      t.isEmpty = false) ∧
    (∀ e, (translateWithRetry svc index jit maxRetries).2 = .error e →
      e = msgAllRetriesPre ++ lastCause svc maxRetries ∧
      countEv isAttemptEv (translateWithRetry svc index jit maxRetries).1
        = maxRetries) := by
  obtain ⟨h1, h2, _⟩ := retryGo_counts svc index jit maxRetries 1
  obtain ⟨h4, h5⟩ := retryGo_result svc index jit maxRetries 1 h
  refine ⟨h1, h2, ?_, h4, h5, ?_⟩
  · intro n
    have hc := retryGo_acquire_covers svc index jit maxRetries 1 n
    simpa using hc
  · intro e he
    have her := retryGo_error svc index jit maxRetries 1 e he
    have hidx : 1 + maxRetries - 1 = maxRetries := by omega
    rw [hidx] at her
    exact her

/-- C6 (witness): the contract at a concrete always-failing service. -/
theorem c6_witness :
    1 ≤ 2 ∧
    countEv isAttemptEv (translateWithRetry svcBoom 0 (fun _ => 0) 2).1 ≤ 2 :=
  ⟨by decide, (c6_translateWithRetry_contract svcBoom 0 (fun _ => 0) 2 (by decide)).1⟩

/-- C7 (counterexample): equal-priority fragments do NOT retain document
order as tie-break.  In `<div>aa<p>bb</p>cc</div>` all three fragments
have priority 0, extraction groups the direct texts of each element
(`$('*')` order), so the stable sort yields aa, cc, bb — but in document
order bb precedes cc.  The claim's tie-break assertion fails on this
document. -/
theorem c7_counterexample_tiebreak_not_document_order :
    pairwiseB (fun f g => !(f.priority == g.priority) || pathBefore f.path g.path)
      (sortByPriorityDesc (collectNode (cheerioLoad exBodyNested))) = false := by
  decide

/-- C7 (amended): line 129 sorts the single fragment array in place (the
variable afterwards holds `sortByPriorityDesc` of the extraction
sequence): the result is sorted by priority descending; the sort is
stable with respect to EXTRACTION order (the fragments of each priority
appear exactly as extracted, which is element-grouped `$('*')` order,
not text-node document order); it is a permutation of the extraction
sequence; and every h1 fragment (priority 5) occupies an earlier
position — hence begins its sequential dispatch earlier — than every
default-priority (0) fragment. -/
theorem c7_scheduler_sort_properties :
    (∀ (l : List Fragment),
      (sortByPriorityDesc l).Pairwise (fun f g => g.priority ≤ f.priority)) ∧
    (∀ (l : List Fragment) (k : Nat),
      (sortByPriorityDesc l).filter (fun f => f.priority == k)
        = l.filter (fun f => f.priority == k)) ∧
    (∀ (l : List Fragment), (sortByPriorityDesc l).Perm l) ∧
    (∀ (body : List Node)
      (i j : Fin (sortByPriorityDesc (collectNode (cheerioLoad body))).length),
      ((sortByPriorityDesc (collectNode (cheerioLoad body))).get i).tagName = tagH1 →
      ((sortByPriorityDesc (collectNode (cheerioLoad body))).get j).priority = 0 →
      i < j) := by
  refine ⟨sortByPriorityDesc_sorted, fun l k => sortByPriorityDesc_filter k l,
    sortByPriorityDesc_perm, ?_⟩
  intro body i j hi hj
  have hmem : (sortByPriorityDesc (collectNode (cheerioLoad body))).get i
      ∈ collectNode (cheerioLoad body) :=
    mem_sortByPriorityDesc.mp (List.get_mem _ i.1 i.2)
  obtain ⟨_, _, _, _, _, _, hpr⟩ := collectNode_sound _ _ hmem
  have hp5 : ((sortByPriorityDesc (collectNode (cheerioLoad body))).get i).priority
      = 5 := by
    rw [hpr, hi]
    decide
  by_contra hij
  push_neg at hij
  rcases lt_or_eq_of_le hij with hlt | heq
  · have hle := List.pairwise_iff_get.mp (sortByPriorityDesc_sorted _) j i hlt
    omega
  · rw [heq] at hj
    omega

/-- C7 (witness): in a document with a default paragraph before an h1,
the h1 fragment is dispatched first. -/
theorem c7_witness :
    ((sortByPriorityDesc (collectNode (cheerioLoad exBodyH1))).get
        ⟨0, by decide⟩).tagName = tagH1 ∧
    ((sortByPriorityDesc (collectNode (cheerioLoad exBodyH1))).get
        ⟨1, by decide⟩).priority = 0 ∧
    (⟨0, by decide⟩ :
        Fin (sortByPriorityDesc (collectNode (cheerioLoad exBodyH1))).length)
      < ⟨1, by decide⟩ :=
  ⟨by decide, by decide,
    c7_scheduler_sort_properties.2.2.2 exBodyH1 ⟨0, by decide⟩ ⟨1, by decide⟩
      (by decide) (by decide)⟩

/-- C8 (counterexample): the stagger sleep of lines 193-196 sits INSIDE
the retry loop: with dispatchIndex 1 and a service failing every attempt,
a 2-retry call sleeps the stagger twice — once per attempt — not exactly
once before the first attempt only. -/
theorem c8_counterexample_stagger_repeats :
    countEv isStaggerEv (translateWithRetry svcBoom 1 (fun _ => 0) 2).1 ≠ 1 ∧
    countEv isStaggerEv (translateWithRetry svcBoom 1 (fun _ => 0) 2).1 = 2 ∧
    countEv isAttemptEv (translateWithRetry svcBoom 1 (fun _ => 0) 2).1 = 2 := by
  decide

/-- C8 (amended): for dispatchIndex > 0, `translateWithRetry` sleeps
dispatchIndex × 100 ms once before EVERY attempt (retries included): the
stagger count equals the attempt count, every stagger sleeps exactly
dispatchIndex × 100, in every trace prefix the attempts never outnumber
the staggers (each attempt is preceded by its stagger), and with
dispatchIndex 0 no stagger ever happens. -/
theorem c8_stagger_before_every_attempt (svc : SvcBehavior) (jit : Nat → Nat)
    (index maxRetries : Nat) (h : 0 < index) :
    countEv isStaggerEv (translateWithRetry svc index jit maxRetries).1
      = countEv isAttemptEv (translateWithRetry svc index jit maxRetries).1 ∧
    (∀ d, REvent.stagger d ∈ (translateWithRetry svc index jit maxRetries).1 →
      d = index * 100) ∧
    (∀ n, countEv isAttemptEv ((translateWithRetry svc index jit maxRetries).1.take n)
      ≤ countEv isStaggerEv ((translateWithRetry svc index jit maxRetries).1.take n)) ∧
    (∀ (svc2 : SvcBehavior) (jit2 : Nat → Nat) (m2 : Nat),
      countEv isStaggerEv (translateWithRetry svc2 0 jit2 m2).1 = 0) := by
  obtain ⟨_, _, h3⟩ := retryGo_counts svc index jit maxRetries 1
  rw [if_pos h] at h3
  refine ⟨h3, ?_, ?_, ?_⟩
  · intro d hd
    exact retryGo_stagger_val svc index jit maxRetries 1 d hd
  · intro n
    have hc := retryGo_stagger_covers svc index jit h maxRetries 1 n
    simpa using hc
  · intro svc2 jit2 m2
    obtain ⟨_, _, h3b⟩ := retryGo_counts svc2 0 jit2 m2 1
    rw [if_neg (by omega)] at h3b
    exact h3b

/-- C8 (witness): the amended stagger behavior at a concrete run. -/
theorem c8_witness :
    0 < 1 ∧
    countEv isStaggerEv (translateWithRetry svcBoom 1 (fun _ => 0) 3).1
      = countEv isAttemptEv (translateWithRetry svcBoom 1 (fun _ => 0) 3).1 :=
  ⟨by decide,
    (c8_stagger_before_every_attempt svcBoom (fun _ => 0) 1 3 (by decide)).1⟩

/-- C9 (counterexample): line 178 uses String.prototype.replace, which
applies ECMAScript GetSubstitution to the replacement string; for the
translation "$&!" of the node text " hi " the written text is " hi! "
(the matched text is re-inserted for $&), not the claimed
leading-whitespace ++ translation ++ trailing-whitespace. -/
theorem c9_counterexample_substitution :
    textAt (processItem svcProbe (cheerioLoad exBodyWs) frag9) frag9.path
      ≠ some (wsLead strHiPad ++ (strSubstProbe ++ wsTrail strHiPad)) ∧
    textAt (processItem svcProbe (cheerioLoad exBodyWs) frag9) frag9.path
      = some strHiBang := by
  exact ⟨by decide, by decide⟩

/-- C9 (amended): on a successful, non-blank translation, the fragment's
node text is set to originalText with the first occurrence of trimmedText
replaced by GetSubstitution of the translated text (the matched text as
matched, the leading whitespace as the preceding context, the trailing
whitespace as the following context); the original leading and trailing
whitespace is preserved byte-for-byte around that substituted core, and
when the translated text contains no dollar character the substituted
core is the translated text itself. -/
theorem c9_replacement_substitution_whitespace (svc : Str → SvcBehavior)
    (body : List Node) (doc : Node) (f : Fragment) (t : Str)
    (hf : f ∈ collectNode (cheerioLoad body))
    (htx : textAt doc f.path = some f.originalText)
    (hok : (translateWithRetry (svc f.trimmedText) 0 (fun _ => 0) 5).2 = .ok (some t))
    (ht1 : t.isEmpty = false) (ht2 : (jsTrim t).isEmpty = false) :
    itemNewText svc f = some (replaceFirst f.originalText f.trimmedText t) ∧
    replaceFirst f.originalText f.trimmedText t
      = wsLead f.originalText
        ++ (getSubstitution f.trimmedText (wsLead f.originalText)
              (wsTrail f.originalText) t
            ++ wsTrail f.originalText) ∧
    ('$' ∉ t →
      getSubstitution f.trimmedText (wsLead f.originalText)
        (wsTrail f.originalText) t = t) ∧
    f.originalText
      = wsLead f.originalText ++ (f.trimmedText ++ wsTrail f.originalText) ∧
    textAt (processItem svc doc f) f.path
      = some (wsLead f.originalText
        ++ (getSubstitution f.trimmedText (wsLead f.originalText)
              (wsTrail f.originalText) t
            ++ wsTrail f.originalText)) := by
  obtain ⟨_, _, htr, hq, _, _, _⟩ := collectNode_sound _ f hf
  have hne : jsTrim f.originalText ≠ [] := by
    unfold qualifies at hq
    rw [Bool.and_eq_true] at hq
    have hlen := of_decide_eq_true hq.1
    intro hh
    rw [hh] at hlen
    simp at hlen
  have hcond : (!t.isEmpty && !(jsTrim t).isEmpty) = true := by
    rw [ht1, ht2]
    rfl
  have hni : itemNewText svc f
      = some (replaceFirst f.originalText f.trimmedText t) := by
    simp only [itemNewText, hok]
    rw [if_pos hcond]
  have hrt : replaceFirst f.originalText f.trimmedText t
      = wsLead f.originalText
        ++ (getSubstitution f.trimmedText (wsLead f.originalText)
              (wsTrail f.originalText) t
            ++ wsTrail f.originalText) := by
    rw [htr]
    exact replaceFirst_trim f.originalText t hne
  refine ⟨hni, hrt, ?_, ?_, ?_⟩
  · intro hd
    rw [htr]
    exact getSubstitution_no_dollar _ _ _ t hd
  · rw [htr]
    exact jsTrim_decomp f.originalText
  · have h4 := processItem_textAt_self svc doc f f.originalText htx
    rw [h4]
    congr 1
    simp only [outcomeText, hni]
    exact hrt

/-- C9 (witness): the text node `" hi "` keeps its surrounding
whitespace byte-for-byte around the substituted translated core. -/
theorem c9_witness :
    frag9 ∈ collectNode (cheerioLoad exBodyWs) ∧
    (translateWithRetry (echoSvc frag9.trimmedText) 0 (fun _ => 0) 5).2
      = .ok (some strHi) ∧
    textAt (processItem echoSvc (cheerioLoad exBodyWs) frag9) frag9.path
      = some (wsLead strHiPad
        ++ (getSubstitution frag9.trimmedText (wsLead strHiPad)
              (wsTrail strHiPad) strHi
            ++ wsTrail strHiPad)) :=
  ⟨by decide, by rfl,
    (c9_replacement_substitution_whitespace echoSvc exBodyWs (cheerioLoad exBodyWs)
      frag9 strHi (by decide) (by decide) (by rfl) (by decide) (by decide)).2.2.2.2⟩
